import Mathlib

/-!
# Verification of the chunk-indexing and relationship-graph engine

A shallow embedding of the core of the PDF indexer (`ocr_0.py`,
class `EnhancedPDFIndexer`): the chunker `create_chunks_with_metadata`,
the relationship builder `_build_relationships` (with `_extract_references`),
and the context query `query_with_context`. Python strings are Lean
`String`s (all inputs are ASCII, where Python's `str.lower`, `str.isupper`,
`\s`, `\w` agree with the Lean character predicates used below); Python
lists are Lean `List`s; the `tiktoken` token counter is abstracted as a
function parameter `tokLen : String → Nat` (the claims under study are
independent of the concrete subword tokenizer); Python `set` objects of
page numbers are lists built by membership-checked insertion (only
membership / min / max of these sets is ever consumed downstream);
code that can raise (`IndexError`) is modelled in `Except`.
-/

/-! ## Python string primitives -/

/-- Python's `\s` / `str.strip` whitespace class (ASCII). -/
def isPySpace (c : Char) : Bool :=
  c = ' ' || c = '\t' || c = '\n' || c = '\r' || c = '\x0b' || c = '\x0c'

/-- Python `str.strip()`. -/
def pyStrip (s : String) : String :=
  String.mk (((s.data.dropWhile isPySpace).reverse.dropWhile isPySpace).reverse)

/-- Python `str.lower()` (ASCII). -/
def pyLower (s : String) : String :=
  String.mk (s.data.map Char.toLower)

/-- Python's `needle in hay` on strings: contiguous substring. -/
def pyInStr (needle hay : String) : Bool :=
  decide (needle.data <:+: hay.data)

/-- Python truthiness of an optional string (`None` and `""` are falsy),
as used by `if chunk['location_metadata']['section']:` and
`3 if subsection else (2 if section else 1)`. -/
def pyTruthy : Option String → Bool
  | none => false
  | some s => !s.isEmpty

/-- Characters `.` `!` `?` — the lookbehind class of the sentence splitter. -/
def isSentEnd : Option Char → Bool
  | some c => c = '.' || c = '!' || c = '?'
  | none => false

/-- `re.split(r'(?<=[.!?])\s+', text)` on a character list: cut at every
maximal whitespace run immediately preceded by `.`, `!` or `?`; the run is
consumed as the delimiter. `prevc` is the character before the current
position, `cur` the (reversed) piece being accumulated. -/
def splitSentAux : Nat → Option Char → List Char → List Char → List (List Char)
  | _, _, cur, [] => [cur.reverse]
  | 0, _, cur, _ => [cur.reverse]
  | fuel + 1, prevc, cur, c :: rest =>
    if isPySpace c && isSentEnd prevc then
      cur.reverse :: splitSentAux fuel (some ' ') [] (rest.dropWhile isPySpace)
    else
      splitSentAux fuel (some c) (c :: cur) rest

/-- `re.split(r'(?<=[.!?])\s+', text)` — line 207 of `ocr_0.py`. Each
step of `splitSentAux` consumes at least one character, so fuel equal to
the input length suffices (the `0`-fuel fallback is unreachable); fuel
keeps the recursion structural, hence kernel-evaluable. -/
def splitSentences (s : String) : List String :=
  (splitSentAux s.data.length none [] s.data).map String.mk

/-- Value of a digit run. -/
def digitsToNat (ds : List Char) : Nat :=
  ds.foldl (fun n c => 10 * n + (c.toNat - '0'.toNat)) 0

/-- Try to match `--- Page (\d+) ---` anchored at the head of `l`:
the literal `"--- Page "`, then a maximal nonempty digit run, then
`" ---"` (the regex cannot backtrack into a shorter digit run because
`' '` is not a digit). Returns the captured page number. -/
def matchMarkerAt (l : List Char) : Option Nat :=
  if "--- Page ".data.isPrefixOf l then
    let rest := l.drop 9
    let ds := rest.takeWhile Char.isDigit
    if !ds.isEmpty && " ---".data.isPrefixOf (rest.drop ds.length) then
      some (digitsToNat ds)
    else none
  else none

/-- First match of the marker pattern in a character list (leftmost). -/
def findMarkerAux : List Char → Option Nat
  | [] => none
  | l@(_ :: rest) =>
    match matchMarkerAt l with
    | some p => some p
    | none => findMarkerAux rest

/-- `re.search(r'--- Page (\d+) ---', sentence)` — line 214 of `ocr_0.py`:
the page number of the first page marker occurring in the sentence,
if any. -/
def findPageMarker (s : String) : Option Nat :=
  findMarkerAux s.data

/-! ## `_extract_references` (lines 370–392): a small matcher per regex

Each pattern of the Python list is compiled by hand into an anchored
matcher `List Char → Option (String × List Char)` returning the string
`re.findall` would emit (the capture group, or the whole match for the
group-less patterns) and the input remaining after the match; `pyFindall`
then scans left-to-right, non-overlapping, exactly like `re.findall`.
Greedy `\s+` / `\w+` / `\d+` runs never need backtracking in these
patterns (the following atom can never match a character of the run),
except inside `\(see\s+([^)]+)\)` where the give-back of `\s+` into
`[^)]+` is resolved in closed form in `matchParenSee`. -/

/-- Case-insensitive literal prefix; returns the rest on success. -/
def ciStrip? : List Char → List Char → Option (List Char)
  | [], l => some l
  | _ :: _, [] => none
  | c :: cs, d :: ds => if c.toLower = d.toLower then ciStrip? cs ds else none

/-- Case-sensitive literal prefix; returns the rest on success. -/
def csStrip? (lit l : List Char) : Option (List Char) :=
  if lit.isPrefixOf l then some (l.drop lit.length) else none

/-- `\s+` (greedy, at least one). -/
def wsStrip? : List Char → Option (List Char)
  | c :: rest => if isPySpace c then some (rest.dropWhile isPySpace) else none
  | [] => none

/-- Python `\w` (ASCII): `[A-Za-z0-9_]`. -/
def isWordChar (c : Char) : Bool := c.isAlphanum || c = '_'

/-- A maximal nonempty run of characters in class `cls`:
returns (run, rest). -/
def clsTake? (cls : Char → Bool) (l : List Char) : Option (List Char × List Char) :=
  let w := l.takeWhile cls
  if w.isEmpty then none else some (w, l.drop w.length)

/-- `(?i)see\s+(?:page|section|chapter|part)\s+(\w+)` (the alternatives
are mutually non-prefix literals, so ordered alternation needs no
backtracking). -/
def matchSeeRef (l : List Char) : Option (String × List Char) := do
  let r1 ← ciStrip? "see".data l
  let r2 ← wsStrip? r1
  let r3 ← ciStrip? "page".data r2 <|> ciStrip? "section".data r2 <|>
           ciStrip? "chapter".data r2 <|> ciStrip? "part".data r2
  let r4 ← wsStrip? r3
  let (w, r5) ← clsTake? isWordChar r4
  pure (String.mk w, r5)

/-- `(?i)refer\s+to\s+(\w+)`. -/
def matchReferTo (l : List Char) : Option (String × List Char) := do
  let r1 ← ciStrip? "refer".data l
  let r2 ← wsStrip? r1
  let r3 ← ciStrip? "to".data r2
  let r4 ← wsStrip? r3
  let (w, r5) ← clsTake? isWordChar r4
  pure (String.mk w, r5)

/-- `(?i)as\s+mentioned\s+in\s+(\w+)`. -/
def matchMentionedIn (l : List Char) : Option (String × List Char) := do
  let r1 ← ciStrip? "as".data l
  let r2 ← wsStrip? r1
  let r3 ← ciStrip? "mentioned".data r2
  let r4 ← wsStrip? r3
  let r5 ← ciStrip? "in".data r4
  let r6 ← wsStrip? r5
  let (w, r7) ← clsTake? isWordChar r6
  pure (String.mk w, r7)

/-- `(?i)described\s+in\s+(\w+)`. -/
def matchDescribedIn (l : List Char) : Option (String × List Char) := do
  let r1 ← ciStrip? "described".data l
  let r2 ← wsStrip? r1
  let r3 ← ciStrip? "in".data r2
  let r4 ← wsStrip? r3
  let (w, r5) ← clsTake? isWordChar r4
  pure (String.mk w, r5)

/-- `\(see\s+([^)]+)\)` (case-sensitive). After the literal `(see`, let
`p` be the (non-`)`) characters up to the first `)`: the regex matches iff
`p` starts with whitespace, `)` follows `p`, and `p` splits as `\s+`
(greedy) followed by a nonempty capture; when `p` is all whitespace the
engine backtracks and the capture is `p`'s last character. -/
def matchParenSee (l : List Char) : Option (String × List Char) := do
  let r1 ← csStrip? "(see".data l
  match r1 with
  | [] => none
  | c :: _ =>
    if isPySpace c then
      let p := r1.takeWhile (fun d => d ≠ ')')
      match r1.drop p.length with
      | ')' :: rest =>
        let w := p.takeWhile isPySpace
        if w.length < p.length then
          some (String.mk (p.drop w.length), rest)
        else if 2 ≤ p.length then
          some (String.mk (p.drop (p.length - 1)), rest)
        else none
      | _ => none
    else none

/-- The group-less patterns `Part\s+\d+`, `Section\s+[\d.]+`,
`Chapter\s+\d+`: `re.findall` emits the whole matched text
(literal, actual whitespace run, maximal class run). -/
def matchLitNum (lit : List Char) (cls : Char → Bool) (l : List Char) :
    Option (String × List Char) := do
  let r1 ← csStrip? lit l
  match r1 with
  | [] => none
  | c :: _ =>
    if isPySpace c then
      let ws := r1.takeWhile isPySpace
      let r2 := r1.drop ws.length
      let ds := r2.takeWhile cls
      if ds.isEmpty then none
      else some (String.mk (lit ++ ws ++ ds), r2.drop ds.length)
    else none

/-- `re.findall`: scan left to right; on a match at the current position
emit it and resume after its end, otherwise advance one character. Every
matcher above consumes at least one character on success, so fuel equal
to the input length suffices. -/
def findallAux (m : List Char → Option (String × List Char)) :
    Nat → List Char → List String
  | 0, _ => []
  | _, [] => []
  | fuel + 1, l@(_ :: rest) =>
    match m l with
    | some (s, rest') => s :: findallAux m fuel rest'
    | none => findallAux m fuel rest

/-- `re.findall(pattern, s)` for one hand-compiled pattern. -/
def pyFindall (m : List Char → Option (String × List Char)) (s : String) :
    List String :=
  findallAux m s.data.length s.data

/-- `_extract_references` (lines 370–392): all eight patterns in order,
then `list(set(...))`. CPython's `set` iteration order is
implementation-defined, so the dedup is modelled with `List.dedup`;
downstream code (Pass 2 of `_build_relationships`) only consumes
membership of this list. -/
def extract_references (text : String) : List String :=
  (pyFindall matchSeeRef text ++ pyFindall matchReferTo text ++
   pyFindall matchMentionedIn text ++ pyFindall matchDescribedIn text ++
   pyFindall matchParenSee text ++
   pyFindall (matchLitNum "Part".data Char.isDigit) text ++
   pyFindall (matchLitNum "Section".data (fun c => c.isDigit || c = '.')) text ++
   pyFindall (matchLitNum "Chapter".data Char.isDigit) text).dedup

/-! ## Data model -/

/-- One entry of a page's `sections` list (produced upstream by
`_detect_sections`): the matched heading text and its hierarchy level.
Only these two fields are read by `create_chunks_with_metadata`. -/
structure SectionInfo where
  text : String
  hierarchy_level : Nat
deriving Repr, DecidableEq

/-- One entry of `pdf_data['pages']` as read by the chunker:
`page_number`, `text` and `sections` (the other fields of
`extract_with_location`'s dict — paragraphs, counts, bbox — are never
read by the code under study). -/
structure PageData where
  page_number : Nat
  text : String
  sections : List SectionInfo
deriving Repr, DecidableEq

/-- `pdf_data` as consumed by `create_chunks_with_metadata`. -/
structure PdfData where
  pages : List PageData
deriving Repr, DecidableEq

/-- Indexer configuration (`EnhancedPDFIndexer.__init__`): the chunk-size
threshold, the (accepted but never applied in the windowing) token
overlap, and the token counter `len(self.encoding.encode(·))`, abstracted
as a function since `tiktoken`'s BPE table is an external artifact. -/
structure Cfg where
  chunk_size : Nat := 1000
  chunk_overlap : Nat := 200
  tokLen : String → Nat

/-- A chunk as produced by `create_chunk` (lines 258–285). The fields
no claim touches are omitted: `hash` (an MD5 fingerprint), the
`paragraph_range`, the `position` percentage block and `outline_path`. -/
structure Chunk where
  chunk_id : Nat
  content : String
  token_count : Nat
  page_numbers : List Nat
  start_page : Nat
  end_page : Nat
  section' : Option String
  subsection : Option String
  hierarchy_level : Nat
deriving Repr, DecidableEq

/-- Python `set.add` on a page set modelled as a list:
membership-checked append. -/
def pyInsert (x : Nat) (l : List Nat) : List Nat :=
  if x ∈ l then l else l ++ [x]

/-- `create_chunk` (lines 258–285): `min(pages)`/`max(pages)` default to
`0` on an empty page set, `hierarchy_level = 3 if subsection else (2 if
section else 1)` (Python truthiness). -/
def create_chunk (cfg : Cfg) (chunk_id : Nat) (text : String)
    (pages : List Nat) (sec sub : Option String) : Chunk :=
  { chunk_id := chunk_id
    content := text
    token_count := cfg.tokLen text
    page_numbers := pages
    start_page := (pages.min?).getD 0
    end_page := (pages.max?).getD 0
    section' := sec
    subsection := sub
    hierarchy_level :=
      if pyTruthy sub then 3 else if pyTruthy sec then 2 else 1 }

/-- The page marker the chunker injects between pages (line 196). -/
def pageMarkerStr (n : Nat) : String :=
  "\n--- Page " ++ toString n ++ " ---\n"

/-- Lines 193–196: `full_text += f"\n--- Page {page_num} ---\n{page_text}"`
folded over the pages. -/
def fullTextOf (pd : PdfData) : String :=
  pd.pages.foldl (fun acc p => acc ++ pageMarkerStr p.page_number ++ p.text) ""

/-- Lines 199–204: the `current_section` / `current_subsection` update for
one detected section: a marker of hierarchy level ≤ 2 installs a new
section and clears the subsection; a level-3 marker installs a new
subsection; levels 4 and 5 change nothing. -/
def updateSectionState (st : Option String × Option String)
    (s : SectionInfo) : Option String × Option String :=
  if s.hierarchy_level ≤ 2 then (some s.text, none)
  else if s.hierarchy_level = 3 then (st.1, some s.text)
  else st

/-- The section/subsection state after the page loop of lines 193–204.
In the source this loop runs to completion (over *all* pages) before a
single chunk is created, so this final state is what every chunk receives. -/
def finalSectionState (pd : PdfData) : Option String × Option String :=
  pd.pages.foldl (fun st p => p.sections.foldl updateSectionState st)
    (none, none)

/-- The chunker's loop state: the accumulation buffer
(`current_chunk_text`), the page set (`current_pages` — never reset),
the running `chunk_id` and the chunks emitted so far. -/
structure ChunkState where
  cur : String
  pages : List Nat
  cid : Nat
  chunks : List Chunk
deriving Repr, DecidableEq

/-- One iteration of the sentence loop (lines 212–238) for sentence `s`
at index `i`: record the first page marker found in the sentence, append
the sentence to the buffer, and when the token count reaches the
threshold emit a chunk and reseed the buffer with
`sentences[max(0, i - 5):i + 1]` joined by single spaces. -/
def stepSentence (cfg : Cfg) (sec sub : Option String)
    (sentences : List String) (i : Nat) (s : String)
    (st : ChunkState) : ChunkState :=
  let pages := match findPageMarker s with
    | some p => pyInsert p st.pages
    | none => st.pages
  let cur := st.cur ++ " " ++ s
  if cfg.chunk_size ≤ cfg.tokLen cur then
    { cur := String.intercalate " "
        ((sentences.drop (i - 5)).take (i + 1 - (i - 5)))
      pages := pages
      cid := st.cid + 1
      chunks := st.chunks ++ [create_chunk cfg st.cid (pyStrip cur) pages sec sub] }
  else
    { st with cur := cur, pages := pages }

/-- The sentence loop itself (`for i, sentence in enumerate(sentences)`). -/
def chunkLoop (cfg : Cfg) (sec sub : Option String)
    (sentences : List String) : Nat → List String → ChunkState → ChunkState
  | _, [], st => st
  | i, s :: rest, st =>
      chunkLoop cfg sec sub sentences (i + 1) rest
        (stepSentence cfg sec sub sentences i s st)

/-- `create_chunks_with_metadata` (lines 180–251), without the trailing
`_build_relationships` call (kept separate, as the claims address the
two stages separately): build the full text and the (final) section
state, split into sentences, run the sentence loop, then emit the
trailing chunk when the remaining buffer strips to something nonempty. -/
def create_chunks_with_metadata (cfg : Cfg) (pd : PdfData) : List Chunk :=
  let ss := finalSectionState pd
  let sentences := splitSentences (fullTextOf pd)
  let st := chunkLoop cfg ss.1 ss.2 sentences 0 sentences ⟨"", [], 0, []⟩
  if pyStrip st.cur = "" then st.chunks
  else st.chunks ++ [create_chunk cfg st.cid (pyStrip st.cur) st.pages ss.1 ss.2]

/-! ## `_build_relationships` (lines 298–368) -/

/-- A chunk after `_build_relationships`: the chunk fields plus the
`relationship_metadata` dict (lines 347–358). `rel_chunk_id` is the
`'chunk_id': i` entry written into the metadata (distinct in the source
from the chunk's own top-level id, though equal for pipeline output). -/
structure RChunk where
  chunk_id : Nat
  content : String
  token_count : Nat
  page_numbers : List Nat
  start_page : Nat
  end_page : Nat
  section' : Option String
  subsection : Option String
  hierarchy_level : Nat
  rel_chunk_id : Nat
  previous_chunk_id : Option Nat
  next_chunk_id : Option Nat
  parent_chunk_id : Option Nat
  child_chunk_ids : List Nat
  related_chunk_ids : List Nat
  references_to : List String
  referenced_by_ids : List Nat
  continuation_of : Option Nat
  continues_in : Option Nat
deriving Repr, DecidableEq

/-- `chunks[j]['location_metadata']['hierarchy_level']` with a dummy
default for out-of-range `j` (every use below is in range). -/
def lvlAt (cs : List Chunk) (j : Nat) : Nat :=
  ((cs.get? j).map Chunk.hierarchy_level).getD 0

/-- `chunks[j]['location_metadata']['section']` with a dummy default. -/
def secAt (cs : List Chunk) (j : Nat) : Option String :=
  ((cs.get? j).map Chunk.section').getD none

/-- The last character of trimmed content must avoid these for
`continues_in` to be set (line 344). -/
def sentCloseChars : List Char := ['.', '!', '?', ']', ')', '"']

/-- Pass 1 of `_build_relationships` for the chunk at index `i` (lines
302–358): sequential neighbours, same-section related chunks (Python
truthiness guard on the section, cap 10), extracted references, nearest
preceding lower-level parent, contiguous following higher-level children
(cap 5), and the two continuation heuristics. The `head?`/`getLast?`
defaults cover the empty-trimmed-content case, in which the Python code
raises instead (modelled by the guard in `build_relationships` below). -/
def pass1chunk (cs : List Chunk) (i : Nat) (c : Chunk) : RChunk :=
  let n := cs.length
  let prev := if 0 < i then some (i - 1) else none
  let next := if i < n - 1 then some (i + 1) else none
  let related :=
    if pyTruthy c.section' then
      (List.range n).filter (fun j => j ≠ i && secAt cs j == c.section')
    else []
  let refs := extract_references c.content
  let parent := ((List.range i).reverse).find? (fun j => lvlAt cs j < c.hierarchy_level)
  let children := (List.range' (i + 1) (n - (i + 1))).takeWhile
    (fun j => c.hierarchy_level < lvlAt cs j)
  let s := pyStrip c.content
  { chunk_id := c.chunk_id
    content := c.content
    token_count := c.token_count
    page_numbers := c.page_numbers
    start_page := c.start_page
    end_page := c.end_page
    section' := c.section'
    subsection := c.subsection
    hierarchy_level := c.hierarchy_level
    rel_chunk_id := i
    previous_chunk_id := prev
    next_chunk_id := next
    parent_chunk_id := parent
    child_chunk_ids := children.take 5
    related_chunk_ids := related.take 10
    references_to := refs
    referenced_by_ids := []
    continuation_of :=
      if s.data.head?.any (fun c0 => !c0.isUpper) && prev.isSome then prev
      else none
    continues_in :=
      if s.data.getLast?.any (fun cl => !sentCloseChars.contains cl) && next.isSome
      then next else none }

/-- Pass 2 (lines 360–366) for target chunk `j`: for every source chunk
`i` (in order) and every reference string of `i` (in order), a
case-insensitive substring hit in `j`'s content appends `i` — duplicates
possible, no dedup. -/
def referencedByFor (p1 : List RChunk) (j : Nat) (cj : RChunk) : List Nat :=
  p1.enum.flatMap (fun ir =>
    (ir.2.references_to.filter (fun r =>
      pyInStr (pyLower r) (pyLower cj.content) && ir.1 ≠ j)).map (fun _ => ir.1))

/-- The two passes of `_build_relationships`, assuming no chunk content
strips to empty (the error-free case). -/
def buildRel (cs : List Chunk) : List RChunk :=
  let p1 := cs.enum.map (fun ic => pass1chunk cs ic.1 ic.2)
  p1.enum.map (fun jc =>
    { jc.2 with referenced_by_ids := referencedByFor p1 jc.1 jc.2 })

/-- `_build_relationships` (lines 298–368). The continuation heuristics
index `chunk['content'].strip()[0]` and `[-1]`, so a chunk whose content
strips to the empty string makes the Python call raise `IndexError` and
produce nothing; that abort is modelled by the up-front guard (the
computation is otherwise pure, so success yields exactly the two-pass
result). -/
def build_relationships (cs : List Chunk) : Except String (List RChunk) :=
  if cs.all (fun c => !(pyStrip c.content).isEmpty) then .ok (buildRel cs)
  else .error "IndexError: string index out of range"

/-! ## `query_with_context` (lines 487–539) -/

/-- Python list indexing `xs[i]` with an `int` index: non-negative
indices address from the front, negative indices from the back
(`xs[len(xs) + i]`), anything else raises `IndexError` (here: `none`). -/
def pyGet {α : Type} (xs : List α) (i : Int) : Option α :=
  if 0 ≤ i then xs.get? i.toNat
  else if (-i).toNat ≤ xs.length then xs.get? (xs.length - (-i).toNat)
  else none

/-- The candidate context ids examined for the target chunk, in program
order (lines 507–534): previous/next for `sequential`, parent and the
first 3 stored children for `hierarchical`, first 3 related for
`related`, all of them (in that order) for `all`. -/
def ctxCandidates (t : RChunk) (context_type : String) : List Nat :=
  (if context_type = "sequential" ∨ context_type = "all" then
    t.previous_chunk_id.toList ++ t.next_chunk_id.toList
  else []) ++
  (if context_type = "hierarchical" ∨ context_type = "all" then
    t.parent_chunk_id.toList ++ t.child_chunk_ids.take 3
  else []) ++
  (if context_type = "related" ∨ context_type = "all" then
    t.related_chunk_ids.take 3
  else [])

/-- The visited-set / result accumulation: each candidate not yet in
`visited` is looked up (`chunks[k]`, which can raise) and appended. -/
def ctxGo (chunks : List RChunk) :
    List Nat → List RChunk → List Int → Except String (List RChunk × List Int)
  | [], res, vis => .ok (res, vis)
  | k :: ks, res, vis =>
    if (k : Int) ∈ vis then ctxGo chunks ks res vis
    else
      match chunks.get? k with
      | some c => ctxGo chunks ks (res ++ [c]) (vis ++ [(k : Int)])
      | none => .error "IndexError: list index out of range"

/-- The key order of line 537, `result.sort(key=lambda x: x['chunk_id'])`. -/
def byChunkId (a b : RChunk) : Prop := a.chunk_id ≤ b.chunk_id

instance : DecidableRel byChunkId := fun a b => Nat.decLe a.chunk_id b.chunk_id

/-- `query_with_context` (lines 487–539): fetch the target by Python
indexing (line 503 — this is where an out-of-range id raises), walk the
mode's candidates with the visited set, and return the result sorted by
`chunk_id`. Python's `list.sort` is a stable sort, and any two stable
sorts under the same key agree on every input, so it is modelled by a
(structurally recursive, hence kernel-evaluable) stable insertion sort. -/
def query_with_context (index : List RChunk) (chunk_id : Int)
    (context_type : String) : Except String (List RChunk) :=
  match pyGet index chunk_id with
  | none => .error "IndexError: list index out of range"
  | some target =>
    match ctxGo index (ctxCandidates target context_type) [target] [chunk_id] with
    | .ok st => .ok (st.1.insertionSort byChunkId)
    | .error e => .error e

/-! ## Shared concrete instances for witnesses and counterexamples -/

/-- A character-count tokenizer instance (the chunker is parametric in
the token counter; the structural properties at issue are
tokenizer-independent). -/
def lenCfg (sz : Nat) : Cfg :=
  { chunk_size := sz, chunk_overlap := 200, tokLen := String.length }

/-! ## C1: which section context do emitted chunks carry? -/

/-- The section/subsection parameters of the sentence loop are fixed:
every chunk the loop emits carries exactly them. -/
theorem chunkLoop_sections_const (cfg : Cfg) (sec sub : Option String)
    (sentences : List String) :
    ∀ rest (i : Nat) (st : ChunkState),
      (∀ c ∈ st.chunks, c.section' = sec ∧ c.subsection = sub) →
      ∀ c ∈ (chunkLoop cfg sec sub sentences i rest st).chunks,
        c.section' = sec ∧ c.subsection = sub := by
  intro rest
  induction rest with
  | nil => intro i st h c hc; exact h c hc
  | cons s rest ih =>
    intro i st h c hc
    refine ih (i + 1) _ ?_ c hc
    intro c' hc'
    unfold stepSentence at hc'
    by_cases hcut : cfg.chunk_size ≤ cfg.tokLen (st.cur ++ " " ++ s)
    · simp only [if_pos hcut, List.mem_append, List.mem_singleton] at hc'
      rcases hc' with hc' | rfl
      · exact h c' hc'
      · exact ⟨rfl, rfl⟩
    · simp only [if_neg hcut] at hc'
      exact h c' hc'

/-- C1, amended: the section loop of lines 193–204 runs to completion
over all pages before the sentence loop starts, so every emitted chunk —
wherever it closes — carries the *final* section/subsection state of the
whole document, not the state at its emission point. -/
theorem C1_sections_are_final (cfg : Cfg) (pd : PdfData) (c : Chunk)
    (hc : c ∈ create_chunks_with_metadata cfg pd) :
    c.section' = (finalSectionState pd).1 ∧
    c.subsection = (finalSectionState pd).2 := by
  unfold create_chunks_with_metadata at hc
  by_cases hcur : pyStrip (chunkLoop cfg (finalSectionState pd).1
      (finalSectionState pd).2 (splitSentences (fullTextOf pd)) 0
      (splitSentences (fullTextOf pd)) ⟨"", [], 0, []⟩).cur = ""
  · simp only [hcur, if_pos] at hc
    exact chunkLoop_sections_const cfg _ _ _ _ 0 _ (by intro c hc; cases hc) c hc
  · simp only [if_neg hcur, List.mem_append, List.mem_singleton] at hc
    rcases hc with hc | rfl
    · exact chunkLoop_sections_const cfg _ _ _ _ 0 _ (by intro c hc; cases hc) c hc
    · exact ⟨rfl, rfl⟩

/-- The two-page document used for the C1 witness and counterexample:
the only section marker (depth 2) sits on page 2. -/
def pdC1 : PdfData :=
  ⟨[⟨1, "Alpha beta. Gamma delta. More filler words here. Tail one.", []⟩,
    ⟨2, "Chapter 2 begins now.", [⟨"Chapter 2", 2⟩]⟩]⟩

/-- The first chunk the chunker emits on `pdC1`. -/
def chunk0C1 : Chunk :=
  create_chunk (lenCfg 45) 0
    "--- Page 1 ---\nAlpha beta. Gamma delta. More filler words here."
    [1] (some "Chapter 2") none

/-- Witness for `C1_sections_are_final` at a concrete document. -/
theorem C1_sections_are_final_witness :
    chunk0C1 ∈ create_chunks_with_metadata (lenCfg 45) pdC1 ∧
    chunk0C1.section' = (finalSectionState pdC1).1 :=
  ⟨by decide, (C1_sections_are_final (lenCfg 45) pdC1 chunk0C1 (by decide)).1⟩

/-- Counterexample to C1 as stated: in this two-page document the only
section marker (depth 2, `"Chapter 2"`) sits on page 2, and chunks 0 and
1 close inside page 1 (their page sets are `[1]`), yet they already carry
section `"Chapter 2"`: the chunks on the two sides of the marker carry
the *same* section, and no chunk carries the section active at its
emission point. -/
theorem C1_counterexample :
    ((create_chunks_with_metadata (lenCfg 45) pdC1).map
      (fun c => (c.section', c.page_numbers))) =
    [(some "Chapter 2", [1]), (some "Chapter 2", [1]),
     (some "Chapter 2", [1, 2]), (some "Chapter 2", [1, 2])] := by
  decide

/-! ## C3: the overlap seed after a chunk closes -/

/-- The document used for C3: seven sentences; with a 70-character
threshold the first chunk closes exactly at sentence index `i = 6`. -/
def pdC3 : PdfData :=
  ⟨[⟨1, "A zero. B one. C two. D three. E four. F five. G six.", []⟩]⟩

/-- Evaluation of the chunker at the C3 failing input: the chunk closes
at sentence index `i = 6`, and the reseeded buffer
`sentences[max(0, i - 5):i + 1]` (line 235, commented `# Last 5
sentences`) holds the last **six** sentences — the closing sentence plus
the five before it. No sentence follows, so the trailing chunk is the
seed verbatim: six sentences, where the claim (and the source comment)
predict the five-sentence seed. -/
theorem C3_failing_input_eval :
    (create_chunks_with_metadata (lenCfg 70) pdC3).map Chunk.content =
      ["--- Page 1 ---\nA zero. B one. C two. D three. E four. F five. G six.",
       "B one. C two. D three. E four. F five. G six."] ∧
    "B one. C two. D three. E four. F five. G six." =
      String.intercalate " "
        ["B one.", "C two.", "D three.", "E four.", "F five.", "G six."] ∧
    "B one. C two. D three. E four. F five. G six." ≠
      String.intercalate " "
        ["C two.", "D three.", "E four.", "F five.", "G six."] := by
  refine ⟨by decide, by decide, by decide⟩

/-! ## C4: empty and whitespace-only documents -/

/-- One step of the sentence loop on the empty document's single empty
sentence, for any configuration whose token count of `" "` is below the
threshold: nothing is emitted. -/
theorem stepSentence_empty (cfg : Cfg) (h1 : cfg.tokLen " " < cfg.chunk_size) :
    stepSentence cfg none none [""] 0 "" ⟨"", [], 0, []⟩ = ⟨" ", [], 0, []⟩ := by
  show (if cfg.chunk_size ≤ cfg.tokLen " " then
          (⟨"", [], 1, [create_chunk cfg 0 "" [] none none]⟩ : ChunkState)
        else ⟨" ", [], 0, []⟩) = ⟨" ", [], 0, []⟩
  exact if_neg (Nat.not_le.mpr h1)

/-- Membership survives `dropWhile` for an element the predicate
rejects. -/
theorem mem_dropWhile_of_neg {α : Type} {p : α → Bool} {c : α} :
    ∀ {l : List α}, c ∈ l → p c = false → c ∈ l.dropWhile p := by
  intro l
  induction l with
  | nil => intro h _; cases h
  | cons x xs ih =>
    intro hc hp
    rw [List.dropWhile_cons]
    split
    · rename_i hx
      rcases List.mem_cons.mp hc with rfl | hc'
      · rw [hp] at hx; cases hx
      · exact ih hc' hp
    · exact hc

/-- A string containing a non-whitespace character does not strip to
empty. -/
theorem pyStrip_ne_empty {s : String} {c : Char} (hc : c ∈ s.data)
    (hw : isPySpace c = false) : pyStrip s ≠ "" := by
  intro h
  unfold pyStrip at h
  have hdata :
      ((s.data.dropWhile isPySpace).reverse.dropWhile isPySpace).reverse = [] := by
    have := congrArg String.data h
    simpa using this
  rw [List.reverse_eq_nil_iff] at hdata
  have h1 : c ∈ (s.data.dropWhile isPySpace).reverse :=
    List.mem_reverse.mpr (mem_dropWhile_of_neg hc hw)
  have h2 := List.dropWhile_eq_nil_iff.mp hdata c h1
  rw [hw] at h2
  cases h2

/-- The sentence splitter never drops a non-whitespace character: it
lands in some emitted piece (the delimiters it consumes are whitespace
runs). -/
theorem splitSentAux_mem {c : Char} (hw : isPySpace c = false) :
    ∀ (fuel : Nat) (prevc : Option Char) (cur l : List Char),
      l.length ≤ fuel → (c ∈ cur ∨ c ∈ l) →
      ∃ piece ∈ splitSentAux fuel prevc cur l, c ∈ piece := by
  intro fuel
  induction fuel with
  | zero =>
    intro prevc cur l hlen hc
    have hl : l = [] := List.eq_nil_of_length_eq_zero (Nat.le_zero.mp hlen)
    subst hl
    rcases hc with hc | hc
    · exact ⟨cur.reverse, List.mem_singleton.mpr rfl, List.mem_reverse.mpr hc⟩
    · cases hc
  | succ fuel ih =>
    intro prevc cur l hlen hc
    cases l with
    | nil =>
      rcases hc with hc | hc
      · exact ⟨cur.reverse, List.mem_singleton.mpr rfl, List.mem_reverse.mpr hc⟩
      · cases hc
    | cons ch rest =>
      have hlenr : rest.length ≤ fuel := by
        simp only [List.length_cons] at hlen
        omega
      rw [splitSentAux]
      by_cases hcond : (isPySpace ch && isSentEnd prevc) = true
      · rw [if_pos hcond]
        rcases hc with hc | hc
        · exact ⟨cur.reverse, List.mem_cons_self _ _, List.mem_reverse.mpr hc⟩
        · simp only [Bool.and_eq_true] at hcond
          have hch : isPySpace ch = true := hcond.1
          have hcr : c ∈ rest := by
            rcases List.mem_cons.mp hc with rfl | h
            · rw [hw] at hch; cases hch
            · exact h
          have hlen' : (rest.dropWhile isPySpace).length ≤ fuel :=
            Nat.le_trans ((List.dropWhile_sublist _).length_le) hlenr
          obtain ⟨piece, hp1, hp2⟩ := ih (some ' ') [] (rest.dropWhile isPySpace)
            hlen' (Or.inr (mem_dropWhile_of_neg hcr hw))
          exact ⟨piece, List.mem_cons_of_mem _ hp1, hp2⟩
      · rw [if_neg hcond]
        refine ih (some ch) (ch :: cur) rest hlenr ?_
        rcases hc with hc | hc
        · exact Or.inl (List.mem_cons_of_mem _ hc)
        · rcases List.mem_cons.mp hc with rfl | h
          · exact Or.inl (List.mem_cons_self _ _)
          · exact Or.inr h

/-- String-level form of `splitSentAux_mem`. -/
theorem splitSentences_mem {s : String} {c : Char} (hc : c ∈ s.data)
    (hw : isPySpace c = false) : ∃ t ∈ splitSentences s, c ∈ t.data := by
  obtain ⟨piece, hp1, hp2⟩ :=
    splitSentAux_mem hw s.data.length none [] s.data (Nat.le_refl _) (Or.inr hc)
  exact ⟨String.mk piece, List.mem_map_of_mem _ hp1, hp2⟩

/-- A character of the accumulator or of any piece survives the
space-joined accumulation. -/
theorem mem_foldl_join {c : Char} :
    ∀ (l : List String) (init : String),
      (c ∈ init.data ∨ ∃ t ∈ l, c ∈ t.data) →
      c ∈ (l.foldl (fun acc s => acc ++ " " ++ s) init).data := by
  intro l
  induction l with
  | nil =>
    intro init hc
    rcases hc with hc | ⟨t, ht, _⟩
    · exact hc
    · cases ht
  | cons s l ih =>
    intro init hc
    rw [List.foldl_cons]
    refine ih (init ++ " " ++ s) ?_
    rcases hc with hc | ⟨t, ht, hct⟩
    · refine Or.inl ?_
      rw [String.data_append, String.data_append]
      exact List.mem_append.mpr (Or.inl (List.mem_append.mpr (Or.inl hc)))
    · rcases List.mem_cons.mp ht with rfl | ht'
      · refine Or.inl ?_
        rw [String.data_append]
        exact List.mem_append.mpr (Or.inr hct)
      · exact Or.inr ⟨t, ht', hct⟩

/-- Characters of the initial accumulator survive the page fold of
`fullTextOf`. -/
theorem mem_fullText_foldl {c : Char} :
    ∀ (ps : List PageData) (init : String), c ∈ init.data →
      c ∈ (ps.foldl
        (fun acc p => acc ++ pageMarkerStr p.page_number ++ p.text) init).data := by
  intro ps
  induction ps with
  | nil => exact fun _ hc => hc
  | cons p ps ih =>
    intro init hc
    rw [List.foldl_cons]
    refine ih _ ?_
    rw [String.data_append, String.data_append]
    exact List.mem_append.mpr (Or.inl (List.mem_append.mpr (Or.inl hc)))

/-- A page-bearing document has a dash in its full text (from the first
injected page marker). -/
theorem fullTextOf_has_dash {pd : PdfData} (h : pd.pages ≠ []) :
    ('-' : Char) ∈ (fullTextOf pd).data := by
  obtain ⟨p, ps, hpp⟩ : ∃ p ps, pd.pages = p :: ps := by
    cases hps : pd.pages with
    | nil => exact absurd hps h
    | cons p ps => exact ⟨p, ps, rfl⟩
  unfold fullTextOf
  rw [hpp, List.foldl_cons]
  refine mem_fullText_foldl ps _ ?_
  rw [String.data_append, String.data_append]
  refine List.mem_append.mpr (Or.inl (List.mem_append.mpr (Or.inr ?_)))
  unfold pageMarkerStr
  rw [String.data_append, String.data_append]
  exact List.mem_append.mpr (Or.inl (List.mem_append.mpr (Or.inl (by decide))))

/-- Chunks are only ever appended by the sentence loop. -/
theorem chunkLoop_chunks_mono (cfg : Cfg) (sec sub : Option String)
    (sentences : List String) :
    ∀ rest (i : Nat) (st : ChunkState),
      st.chunks <+: (chunkLoop cfg sec sub sentences i rest st).chunks := by
  intro rest
  induction rest with
  | nil => exact fun _ _ => List.prefix_rfl
  | cons s rest ih =>
    intro i st
    refine List.IsPrefix.trans ?_ (ih (i + 1) (stepSentence cfg sec sub sentences i s st))
    unfold stepSentence
    by_cases hcut : cfg.chunk_size ≤ cfg.tokLen (st.cur ++ " " ++ s)
    · rw [if_pos hcut]
      exact List.prefix_append _ _
    · rw [if_neg hcut]

/-- If the loop emitted nothing, the final buffer is the space-joined
accumulation of all the sentences it processed. -/
theorem chunkLoop_cur_of_no_chunks (cfg : Cfg) (sec sub : Option String)
    (sentences : List String) :
    ∀ rest (i : Nat) (st : ChunkState),
      (chunkLoop cfg sec sub sentences i rest st).chunks = [] →
      (chunkLoop cfg sec sub sentences i rest st).cur =
        rest.foldl (fun acc s => acc ++ " " ++ s) st.cur := by
  intro rest
  induction rest with
  | nil => exact fun _ _ _ => rfl
  | cons s rest ih =>
    intro i st hnil
    have heq : chunkLoop cfg sec sub sentences i (s :: rest) st =
        chunkLoop cfg sec sub sentences (i + 1) rest
          (stepSentence cfg sec sub sentences i s st) := rfl
    by_cases hcut : cfg.chunk_size ≤ cfg.tokLen (st.cur ++ " " ++ s)
    · exfalso
      have hpre := chunkLoop_chunks_mono cfg sec sub sentences rest (i + 1)
        (stepSentence cfg sec sub sentences i s st)
      rw [heq] at hnil
      rw [hnil] at hpre
      have hsc : (stepSentence cfg sec sub sentences i s st).chunks =
          st.chunks ++ [create_chunk cfg st.cid (pyStrip (st.cur ++ " " ++ s))
            (match findPageMarker s with
             | some p => pyInsert p st.pages
             | none => st.pages) sec sub] := by
        unfold stepSentence
        rw [if_pos hcut]
      rw [hsc] at hpre
      exact List.append_ne_nil_of_right_ne_nil _ (by simp) (List.prefix_nil.mp hpre)
    · have hsc : stepSentence cfg sec sub sentences i s st =
          { st with
            cur := st.cur ++ " " ++ s
            pages := (match findPageMarker s with
              | some p => pyInsert p st.pages
              | none => st.pages) } := by
        unfold stepSentence
        rw [if_neg hcut]
      rw [List.foldl_cons]
      rw [heq] at hnil ⊢
      rw [hsc] at hnil ⊢
      exact ih (i + 1) _ hnil

/-- Any page-bearing document produces at least one chunk, whatever the
tokenizer: the injected page markers put a non-whitespace character (a
dash) into the sentence stream, so either the loop emitted a chunk, or
the trailing buffer holds every sentence and strips to something
nonempty, emitting the trailing chunk. -/
theorem create_chunks_ne_nil (cfg : Cfg) (pd : PdfData)
    (hp : pd.pages ≠ []) : create_chunks_with_metadata cfg pd ≠ [] := by
  intro hnil
  have hrepr : create_chunks_with_metadata cfg pd =
      if pyStrip (chunkLoop cfg (finalSectionState pd).1 (finalSectionState pd).2
          (splitSentences (fullTextOf pd)) 0 (splitSentences (fullTextOf pd))
          ⟨"", [], 0, []⟩).cur = "" then
        (chunkLoop cfg (finalSectionState pd).1 (finalSectionState pd).2
          (splitSentences (fullTextOf pd)) 0 (splitSentences (fullTextOf pd))
          ⟨"", [], 0, []⟩).chunks
      else
        (chunkLoop cfg (finalSectionState pd).1 (finalSectionState pd).2
          (splitSentences (fullTextOf pd)) 0 (splitSentences (fullTextOf pd))
          ⟨"", [], 0, []⟩).chunks ++
        [create_chunk cfg
          (chunkLoop cfg (finalSectionState pd).1 (finalSectionState pd).2
            (splitSentences (fullTextOf pd)) 0 (splitSentences (fullTextOf pd))
            ⟨"", [], 0, []⟩).cid
          (pyStrip (chunkLoop cfg (finalSectionState pd).1 (finalSectionState pd).2
            (splitSentences (fullTextOf pd)) 0 (splitSentences (fullTextOf pd))
            ⟨"", [], 0, []⟩).cur)
          (chunkLoop cfg (finalSectionState pd).1 (finalSectionState pd).2
            (splitSentences (fullTextOf pd)) 0 (splitSentences (fullTextOf pd))
            ⟨"", [], 0, []⟩).pages
          (finalSectionState pd).1 (finalSectionState pd).2] := rfl
  rw [hrepr] at hnil
  split at hnil
  · rename_i hcur
    obtain ⟨t, ht, hct⟩ := splitSentences_mem (fullTextOf_has_dash hp) (by decide)
    have hcur2 := chunkLoop_cur_of_no_chunks cfg (finalSectionState pd).1
      (finalSectionState pd).2 (splitSentences (fullTextOf pd))
      (splitSentences (fullTextOf pd)) 0 ⟨"", [], 0, []⟩ hnil
    have hdash : ('-' : Char) ∈ (chunkLoop cfg (finalSectionState pd).1
        (finalSectionState pd).2 (splitSentences (fullTextOf pd)) 0
        (splitSentences (fullTextOf pd)) ⟨"", [], 0, []⟩).cur.data := by
      rw [hcur2]
      exact mem_foldl_join _ "" (Or.inr ⟨t, ht, hct⟩)
    exact pyStrip_ne_empty hdash (by decide) hcur
  · exact List.append_ne_nil_of_right_ne_nil _ (by simp) hnil

/-- Seven empty pages: enough for the marker-only text to cross a
100-character threshold. -/
def pdC4many : PdfData := ⟨(List.range 7).map (fun i => ⟨i + 1, "", []⟩)⟩

/-- C4, amended: only an input with *no pages* yields zero chunks, and
it raises no error (holds whenever one separator token is below the
threshold, as with `tiktoken` under the default 1000). A page-bearing
input — in particular one whose page texts are all empty or
whitespace-only — *never* yields zero chunks, for any tokenizer: the
injected page markers alone guarantee at least one chunk. A single
empty page yields exactly one chunk holding the marker line, with
relationship building succeeding on it without error; with enough empty
pages the marker-only sentence itself crosses the threshold, so the
loop emits a chunk and the reseeded trailing buffer duplicates it —
seven empty pages at character-threshold 100 yield two chunks. -/
theorem C4_amended (cfg : Cfg) (h1 : cfg.tokLen " " < cfg.chunk_size) :
    create_chunks_with_metadata cfg ⟨[]⟩ = [] ∧
    build_relationships (create_chunks_with_metadata cfg ⟨[]⟩) = .ok [] ∧
    (∀ (cfg' : Cfg) (pd : PdfData), pd.pages ≠ [] →
      create_chunks_with_metadata cfg' pd ≠ []) ∧
    create_chunks_with_metadata (lenCfg 1000) ⟨[⟨1, "", []⟩]⟩ =
      [create_chunk (lenCfg 1000) 0 "--- Page 1 ---" [1] none none] ∧
    (build_relationships
      (create_chunks_with_metadata (lenCfg 1000) ⟨[⟨1, "", []⟩]⟩)).isOk = true ∧
    (create_chunks_with_metadata (lenCfg 100) pdC4many).length = 2 := by
  have hloop : chunkLoop cfg none none [""] 0 [""] ⟨"", [], 0, []⟩ = ⟨" ", [], 0, []⟩ := by
    rw [chunkLoop, stepSentence_empty cfg h1, chunkLoop]
  have hmain : create_chunks_with_metadata cfg ⟨[]⟩ = [] := by
    show (if pyStrip (chunkLoop cfg none none [""] 0 [""] ⟨"", [], 0, []⟩).cur = ""
          then (chunkLoop cfg none none [""] 0 [""] ⟨"", [], 0, []⟩).chunks
          else (chunkLoop cfg none none [""] 0 [""] ⟨"", [], 0, []⟩).chunks ++
            [create_chunk cfg (chunkLoop cfg none none [""] 0 [""] ⟨"", [], 0, []⟩).cid
              (pyStrip (chunkLoop cfg none none [""] 0 [""] ⟨"", [], 0, []⟩).cur)
              (chunkLoop cfg none none [""] 0 [""] ⟨"", [], 0, []⟩).pages none none]) = []
    rw [hloop]
    rfl
  exact ⟨hmain, by rw [hmain]; rfl, fun cfg' pd hp => create_chunks_ne_nil cfg' pd hp,
    by decide, by decide, by decide⟩

/-- Witness for `C4_amended` at the default-like configuration. -/
theorem C4_amended_witness :
    (lenCfg 1000).tokLen " " < (lenCfg 1000).chunk_size ∧
    create_chunks_with_metadata (lenCfg 1000) ⟨[]⟩ = [] ∧
    pdC4many.pages ≠ [] ∧
    create_chunks_with_metadata (lenCfg 100) pdC4many ≠ [] :=
  ⟨by decide, (C4_amended (lenCfg 1000) (by decide)).1, by decide,
    (C4_amended (lenCfg 1000) (by decide)).2.2.1 (lenCfg 100) pdC4many (by decide)⟩

/-- Counterexample to C4 as stated: a one-page document whose page text
is empty ("document text" empty) produces **one** chunk — the injected
page-marker line — not zero. -/
theorem C4_counterexample :
    (create_chunks_with_metadata (lenCfg 1000) ⟨[⟨1, "", []⟩]⟩).length = 1 := by
  decide

/-! ## Characterizing `build_relationships` output -/

/-- `get?` through `enum`. -/
theorem enum_get? {α : Type} {l : List α} {i : Nat} {a : α}
    (h : l.get? i = some a) : l.enum.get? i = some (i, a) := by
  have hi : i < l.length := by
    by_contra h'
    rw [List.get?_len_le (Nat.le_of_not_lt h')] at h
    cases h
  have hi' : i < l.enum.length := by simpa [List.enum_length] using hi
  rw [List.get?_eq_get hi']
  have h2 : l.enum.get ⟨i, hi'⟩ = (i, l.get ⟨i, hi⟩) := by
    simp only [List.getElem_enum, List.get_eq_getElem]
  rw [h2]
  rw [List.get?_eq_get hi] at h
  injection h with h
  rw [h]

/-- `build_relationships` succeeds exactly with the two-pass result. -/
theorem build_relationships_ok {cs : List Chunk} {rcs : List RChunk}
    (h : build_relationships cs = .ok rcs) : rcs = buildRel cs := by
  unfold build_relationships at h
  split at h
  · injection h with h
    exact h.symm
  · cases h

/-- Pass 1 elementwise. -/
theorem pass1_get? {cs : List Chunk} {i : Nat} {c : Chunk}
    (hc : cs.get? i = some c) :
    (cs.enum.map (fun ic => pass1chunk cs ic.1 ic.2)).get? i =
      some (pass1chunk cs i c) := by
  rw [List.get?_map, enum_get? hc]
  rfl

/-- `buildRel` elementwise: the pass-1 record with only
`referenced_by_ids` replaced by the pass-2 scan. -/
theorem buildRel_get? {cs : List Chunk} {i : Nat} {c : Chunk}
    (hc : cs.get? i = some c) :
    (buildRel cs).get? i = some
      { pass1chunk cs i c with
        referenced_by_ids :=
          referencedByFor (cs.enum.map (fun ic => pass1chunk cs ic.1 ic.2)) i
            (pass1chunk cs i c) } := by
  unfold buildRel
  rw [List.get?_map, enum_get? (pass1_get? hc)]
  rfl

/-- Length preservation of the builder. -/
theorem buildRel_length (cs : List Chunk) : (buildRel cs).length = cs.length := by
  simp [buildRel, List.enum_length]

/-! ## C5: Pass-2 reference back-links -/

/-- Membership in the Pass-2 scan for one target chunk: a source chunk
`i` with a reference string whose lowercase form is a substring of the
target's lowercase content lands in the target's list. -/
theorem mem_referencedByFor {p1 : List RChunk} {j : Nat} {cj : RChunk}
    {i : Nat} {ci : RChunk} (hi : p1.get? i = some ci) {r : String}
    (hr : r ∈ ci.references_to)
    (hsub : pyInStr (pyLower r) (pyLower cj.content) = true) (hne : i ≠ j) :
    i ∈ referencedByFor p1 j cj := by
  unfold referencedByFor
  rw [List.mem_flatMap]
  refine ⟨(i, ci), List.get?_mem (enum_get? hi), ?_⟩
  rw [List.mem_map]
  refine ⟨r, ?_, rfl⟩
  rw [List.mem_filter]
  refine ⟨hr, ?_⟩
  simp [hsub, hne]

/-- C5: after Pass 2, whenever some outbound reference string of chunk
`iA` occurs case-insensitively as a substring of chunk `iB`'s content
(`iA ≠ iB`), then `iA` appears in `iB`'s `referenced_by_ids`. -/
theorem C5_pass2_backlinks (cs : List Chunk) (rcs : List RChunk)
    (h : build_relationships cs = .ok rcs) (iA iB : Nat) (cA cB : RChunk)
    (hA : rcs.get? iA = some cA) (hB : rcs.get? iB = some cB)
    (hne : iA ≠ iB) (r : String) (hr : r ∈ cA.references_to)
    (hsub : pyInStr (pyLower r) (pyLower cB.content) = true) :
    iA ∈ cB.referenced_by_ids := by
  obtain rfl : rcs = buildRel cs := build_relationships_ok h
  have hAlen : iA < cs.length := by
    have : iA < (buildRel cs).length := by
      by_contra h'
      rw [List.get?_len_le (Nat.le_of_not_lt h')] at hA
      cases hA
    rwa [buildRel_length] at this
  have hBlen : iB < cs.length := by
    have : iB < (buildRel cs).length := by
      by_contra h'
      rw [List.get?_len_le (Nat.le_of_not_lt h')] at hB
      cases hB
    rwa [buildRel_length] at this
  obtain ⟨cA0, hA0⟩ : ∃ c, cs.get? iA = some c := by
    rw [List.get?_eq_get hAlen]; exact ⟨_, rfl⟩
  obtain ⟨cB0, hB0⟩ : ∃ c, cs.get? iB = some c := by
    rw [List.get?_eq_get hBlen]; exact ⟨_, rfl⟩
  rw [buildRel_get? hA0] at hA
  rw [buildRel_get? hB0] at hB
  injection hA with hA
  injection hB with hB
  subst hA
  subst hB
  exact mem_referencedByFor (pass1_get? hA0) hr hsub hne

/-- Chunk A of the C5 scenario: its content contains the literal
`"(see Section 2.1)"`. -/
def chunkA5 : Chunk :=
  create_chunk (lenCfg 1000) 0
    "Coverage limits apply (see Section 2.1) for details." [1]
    (some "Chapter 1") none

/-- Chunk B of the C5 scenario: its content contains the literal
`"Section 2.1"`. -/
def chunkB5 : Chunk :=
  create_chunk (lenCfg 1000) 1
    "Section 2.1 Deductibles and limits are described here." [1]
    (some "Chapter 1") (some "2.1 Deductibles")

/-- A throwaway record used only as a `getD` default below. -/
def dummyRChunk : RChunk :=
  pass1chunk [] 0 (create_chunk (lenCfg 1) 0 "x" [] none none)

/-- The relationship-annotated form of chunk A. -/
def rcA5 : RChunk := ((buildRel [chunkA5, chunkB5]).get? 0).getD dummyRChunk

/-- The relationship-annotated form of chunk B. -/
def rcB5 : RChunk := ((buildRel [chunkA5, chunkB5]).get? 1).getD dummyRChunk

/-- Witness for `C5_pass2_backlinks` at the spec's scenario: chunk A's
`"(see Section 2.1)"` yields the outbound reference `"Section 2.1"`,
which occurs in chunk B's content, so B's `referenced_by_ids` contains
A's id (0). -/
theorem C5_pass2_backlinks_witness :
    "Section 2.1" ∈ rcA5.references_to ∧
    pyInStr (pyLower "Section 2.1") (pyLower rcB5.content) = true ∧
    0 ∈ rcB5.referenced_by_ids :=
  ⟨by decide, by decide,
    C5_pass2_backlinks [chunkA5, chunkB5] (buildRel [chunkA5, chunkB5]) rfl
      0 1 rcA5 rcB5 rfl rfl (by decide) "Section 2.1" (by decide) (by decide)⟩

/-! ## C6: sequential link symmetry -/

/-- A successful `get?` bounds the index. -/
theorem get?_some_lt {α : Type} {l : List α} {i : Nat} {a : α}
    (h : l.get? i = some a) : i < l.length := by
  by_contra h'
  rw [List.get?_len_le (Nat.le_of_not_lt h')] at h
  cases h

/-- The sequential fields of a built chunk (lines 304–305). -/
theorem buildRel_seq_fields {cs : List Chunk} {i : Nat} {ci : RChunk}
    (hi : (buildRel cs).get? i = some ci) :
    ci.previous_chunk_id = (if 0 < i then some (i - 1) else none) ∧
    ci.next_chunk_id = (if i < cs.length - 1 then some (i + 1) else none) := by
  have hlen : i < cs.length := by
    have := get?_some_lt hi
    rwa [buildRel_length] at this
  obtain ⟨c, hc⟩ : ∃ c, cs.get? i = some c := by
    rw [List.get?_eq_get hlen]; exact ⟨_, rfl⟩
  rw [buildRel_get? hc] at hi
  injection hi with hi
  subst hi
  constructor <;> simp [pass1chunk]

/-- C6: `next_chunk_id` and `previous_chunk_id` are mutually consistent
(`next i = j` iff `prev j = i`), the first chunk's `previous_chunk_id`
is `None`, and the last chunk's `next_chunk_id` is `None`. -/
theorem C6_sequential_symmetry (cs : List Chunk) (rcs : List RChunk)
    (h : build_relationships cs = .ok rcs) (i j : Nat) (ci cj : RChunk)
    (hi : rcs.get? i = some ci) (hj : rcs.get? j = some cj) :
    (ci.next_chunk_id = some j ↔ cj.previous_chunk_id = some i) ∧
    (∀ c0, rcs.get? 0 = some c0 → c0.previous_chunk_id = none) ∧
    (∀ cl, rcs.get? (rcs.length - 1) = some cl → cl.next_chunk_id = none) := by
  obtain rfl : rcs = buildRel cs := build_relationships_ok h
  have hilen : i < cs.length := by
    have := get?_some_lt hi; rwa [buildRel_length] at this
  have hjlen : j < cs.length := by
    have := get?_some_lt hj; rwa [buildRel_length] at this
  refine ⟨?_, ?_, ?_⟩
  · rw [(buildRel_seq_fields hi).2, (buildRel_seq_fields hj).1]
    constructor
    · intro hnext
      split at hnext
      · injection hnext with hnext
        rw [if_pos (by omega : 0 < j)]
        exact congrArg some (by omega)
      · cases hnext
    · intro hprev
      split at hprev
      · injection hprev with hprev
        rw [if_pos (by omega : i < cs.length - 1)]
        exact congrArg some (by omega)
      · cases hprev
  · intro c0 hc0
    rw [(buildRel_seq_fields hc0).1]
    simp
  · intro cl hcl
    rw [(buildRel_seq_fields hcl).2, buildRel_length]
    simp
/-- Witness for `C6_sequential_symmetry` on the concrete two-chunk
index. -/
theorem C6_sequential_symmetry_witness :
    (rcA5.next_chunk_id = some 1 ↔ rcB5.previous_chunk_id = some 0) ∧
    rcA5.previous_chunk_id = none :=
  have h := C6_sequential_symmetry [chunkA5, chunkB5]
    (buildRel [chunkA5, chunkB5]) rfl 0 1 rcA5 rcB5 rfl rfl
  ⟨h.1, h.2.1 rcA5 rfl⟩

/-! ## C8: nearest preceding lower-level parent -/

/-- A successful backward scan `for j in range(i - 1, -1, -1)` returns
the *nearest* hit: the found index satisfies the predicate and every
index strictly between it and `i` does not. -/
theorem find?_revRange_some {p : Nat → Bool} :
    ∀ {i j : Nat}, ((List.range i).reverse).find? p = some j →
      j < i ∧ p j = true ∧ ∀ k, j < k → k < i → p k = false := by
  intro i
  induction i with
  | zero => intro j h; simp [List.range_zero] at h
  | succ n ih =>
    intro j h
    rw [List.range_succ, List.reverse_append, List.reverse_singleton,
      List.singleton_append] at h
    cases hpn : p n with
    | true =>
      rw [List.find?_cons_of_pos _ hpn] at h
      injection h with h
      subst h
      exact ⟨Nat.lt_succ_self _, hpn, fun k hk1 hk2 => absurd hk2 (by omega)⟩
    | false =>
      rw [List.find?_cons_of_neg _ (by simp [hpn])] at h
      obtain ⟨h1, h2, h3⟩ := ih h
      refine ⟨by omega, h2, fun k hk1 hk2 => ?_⟩
      rcases Nat.lt_succ_iff_lt_or_eq.mp hk2 with hk | rfl
      · exact h3 k hk1 hk
      · exact hpn

/-- A failed backward scan means no preceding index satisfies the
predicate. -/
theorem find?_revRange_none {p : Nat → Bool} {i : Nat}
    (h : ((List.range i).reverse).find? p = none) :
    ∀ k, k < i → p k = false := by
  intro k hk
  have := List.find?_eq_none.mp h k (by
    rw [List.mem_reverse, List.mem_range]; exact hk)
  simpa using this

/-- The hierarchy level of a built chunk is the underlying chunk's. -/
theorem buildRel_level {cs : List Chunk} {j : Nat} {cj : RChunk}
    (hj : (buildRel cs).get? j = some cj) :
    cj.hierarchy_level = lvlAt cs j := by
  have hlen : j < cs.length := by
    have := get?_some_lt hj; rwa [buildRel_length] at this
  obtain ⟨c, hc⟩ : ∃ c, cs.get? j = some c := by
    rw [List.get?_eq_get hlen]; exact ⟨_, rfl⟩
  rw [buildRel_get? hc] at hj
  injection hj with hj
  subst hj
  have hc' : cs[j]? = some c := by rw [← List.get?_eq_getElem?]; exact hc
  simp [pass1chunk, lvlAt, hc']

/-- The parent field of a built chunk is the backward scan of
lines 322–326. -/
theorem buildRel_parent_field {cs : List Chunk} {i : Nat} {ci : RChunk}
    (hi : (buildRel cs).get? i = some ci) :
    ci.parent_chunk_id =
      ((List.range i).reverse).find? (fun j => lvlAt cs j < ci.hierarchy_level) := by
  have hlen : i < cs.length := by
    have := get?_some_lt hi; rwa [buildRel_length] at this
  obtain ⟨c, hc⟩ : ∃ c, cs.get? i = some c := by
    rw [List.get?_eq_get hlen]; exact ⟨_, rfl⟩
  rw [buildRel_get? hc] at hi
  injection hi with hi
  subst hi
  simp [pass1chunk]

/-- C8: `parent_chunk_id`, when set, is the nearest preceding chunk with
strictly lower hierarchy level (first match scanning backward), and is
`None` exactly when no preceding chunk has strictly lower level; in
particular every non-null parent has a strictly lower level than its
child. -/
theorem C8_parent_nearest_lower (cs : List Chunk) (rcs : List RChunk)
    (h : build_relationships cs = .ok rcs) (i : Nat) (ci : RChunk)
    (hi : rcs.get? i = some ci) :
    (∀ j, ci.parent_chunk_id = some j →
      j < i ∧
      (∃ cj, rcs.get? j = some cj ∧ cj.hierarchy_level < ci.hierarchy_level) ∧
      (∀ k ck, j < k → k < i → rcs.get? k = some ck →
        ¬ ck.hierarchy_level < ci.hierarchy_level)) ∧
    (ci.parent_chunk_id = none →
      ∀ j cj, j < i → rcs.get? j = some cj →
        ¬ cj.hierarchy_level < ci.hierarchy_level) := by
  obtain rfl : rcs = buildRel cs := build_relationships_ok h
  have hilen : i < cs.length := by
    have := get?_some_lt hi; rwa [buildRel_length] at this
  constructor
  · intro j hj
    rw [buildRel_parent_field hi] at hj
    obtain ⟨h1, h2, h3⟩ := find?_revRange_some hj
    have hjlen : j < cs.length := by omega
    obtain ⟨cj, hcj⟩ : ∃ cj, (buildRel cs).get? j = some cj := by
      rw [List.get?_eq_get (by rw [buildRel_length]; omega :
        j < (buildRel cs).length)]
      exact ⟨_, rfl⟩
    refine ⟨h1, ⟨cj, hcj, ?_⟩, ?_⟩
    · rw [buildRel_level hcj]
      simpa using h2
    · intro k ck hk1 hk2 hck
      rw [buildRel_level hck]
      have := h3 k hk1 hk2
      simpa using this
  · intro hnone j cj hji hcj
    rw [buildRel_parent_field hi] at hnone
    have := find?_revRange_none hnone j hji
    rw [buildRel_level hcj]
    simpa using this

/-- Witness for `C8_parent_nearest_lower`: on the two-chunk index, chunk
1 (level 3) has parent chunk 0 (level 2). -/
theorem C8_parent_nearest_lower_witness :
    rcB5.parent_chunk_id = some 0 ∧
    (∃ cj, (buildRel [chunkA5, chunkB5]).get? 0 = some cj ∧
      cj.hierarchy_level < rcB5.hierarchy_level) :=
  ⟨by decide,
    ((C8_parent_nearest_lower [chunkA5, chunkB5] (buildRel [chunkA5, chunkB5])
      rfl 1 rcB5 rfl).1 0 (by decide)).2.1⟩

/-! ## C9: contiguous higher-level children -/

/-- `takeWhile` of an arithmetic index range is an initial index range:
there is a run length `r` such that the kept indices are exactly
`s, …, s + r - 1`, all satisfying the predicate, and (when the scan did
not exhaust the range) the index `s + r` fails it. -/
theorem takeWhile_range'_spec (p : Nat → Bool) :
    ∀ (m s : Nat), ∃ r, r ≤ m ∧
      (List.range' s m).takeWhile p = List.range' s r ∧
      (∀ k, s ≤ k → k < s + r → p k = true) ∧
      (r < m → p (s + r) = false) := by
  intro m
  induction m with
  | zero => exact fun s => ⟨0, Nat.le_refl 0, rfl, fun k h1 h2 => by omega, by omega⟩
  | succ n ih =>
    intro s
    rw [List.range'_succ]
    cases hps : p s with
    | true =>
      obtain ⟨r, hrm, heq, hall, hterm⟩ := ih (s + 1)
      refine ⟨r + 1, by omega, ?_, ?_, ?_⟩
      · rw [List.takeWhile_cons_of_pos hps, heq, List.range'_succ]
      · intro k hk1 hk2
        rcases Nat.eq_or_lt_of_le hk1 with rfl | hk1'
        · exact hps
        · exact hall k hk1' (by omega)
      · intro hr
        have := hterm (by omega)
        have harr : s + 1 + r = s + (r + 1) := by omega
        rwa [harr] at this
    | false =>
      refine ⟨0, Nat.zero_le _, ?_, fun k h1 h2 => by omega, fun _ => by simpa⟩
      rw [List.takeWhile_cons_of_neg (by simp [hps])]
      rfl

/-- `take` of an arithmetic index range. -/
theorem take_range' : ∀ (t r s : Nat),
    (List.range' s r).take t = List.range' s (min r t) := by
  intro t
  induction t with
  | zero => intro r s; simp
  | succ n ih =>
    intro r s
    cases r with
    | zero => simp
    | succ m =>
      rw [List.range'_succ, List.take_succ_cons, ih m (s + 1),
        Nat.succ_min_succ, List.range'_succ]

/-- The children field of a built chunk is the capped forward scan of
lines 328–333 and 352. -/
theorem buildRel_children_field {cs : List Chunk} {i : Nat} {ci : RChunk}
    (hi : (buildRel cs).get? i = some ci) :
    ci.child_chunk_ids =
      ((List.range' (i + 1) (cs.length - (i + 1))).takeWhile
        (fun j => ci.hierarchy_level < lvlAt cs j)).take 5 := by
  have hlen : i < cs.length := by
    have := get?_some_lt hi; rwa [buildRel_length] at this
  obtain ⟨c, hc⟩ : ∃ c, cs.get? i = some c := by
    rw [List.get?_eq_get hlen]; exact ⟨_, rfl⟩
  rw [buildRel_get? hc] at hi
  injection hi with hi
  subst hi
  simp [pass1chunk]

/-- C9: `child_chunk_ids` holds (at most the first 5 of) the contiguous
run of indices after `i` whose hierarchy level strictly exceeds chunk
`i`'s, terminated at the first index of level ≤ it — equivalently, `j` is
a stored child iff `i < j`, `j` exists, `j ≤ i + 5`, and *every* index in
`(i, j]` has strictly greater level (so nothing past the terminator is a
child). -/
theorem C9_children_contiguous (cs : List Chunk) (rcs : List RChunk)
    (h : build_relationships cs = .ok rcs) (i : Nat) (ci : RChunk)
    (hi : rcs.get? i = some ci) (j : Nat) :
    j ∈ ci.child_chunk_ids ↔
      (i < j ∧ j < cs.length ∧ j ≤ i + 5 ∧
       ∀ k ck, i < k → k ≤ j → rcs.get? k = some ck →
         ci.hierarchy_level < ck.hierarchy_level) := by
  obtain rfl : rcs = buildRel cs := build_relationships_ok h
  have hilen : i < cs.length := by
    have := get?_some_lt hi; rwa [buildRel_length] at this
  obtain ⟨r, hrm, heq, hall, hterm⟩ :=
    takeWhile_range'_spec (fun j => ci.hierarchy_level < lvlAt cs j)
      (cs.length - (i + 1)) (i + 1)
  have hch : ci.child_chunk_ids = List.range' (i + 1) (min r 5) := by
    rw [buildRel_children_field hi, heq, take_range']
  have hget : ∀ k, k < cs.length → ∃ ck, (buildRel cs).get? k = some ck := by
    intro k hk
    rw [List.get?_eq_get (by rw [buildRel_length]; exact hk :
      k < (buildRel cs).length)]
    exact ⟨_, rfl⟩
  rw [hch, List.mem_range'_1]
  constructor
  · rintro ⟨h1, h2⟩
    have hjr : j < i + 1 + r := by omega
    refine ⟨by omega, by omega, by omega, ?_⟩
    intro k ck hk1 hk2 hck
    have hp := hall k (by omega) (by omega)
    rw [buildRel_level hck]
    simpa using hp
  · rintro ⟨h1, h2, h3, h4⟩
    refine ⟨by omega, ?_⟩
    have hjr : j - (i + 1) < r := by
      by_contra hcon
      have hrj : r ≤ j - (i + 1) := Nat.le_of_not_lt hcon
      have hrltm : r < cs.length - (i + 1) := by omega
      have hfail := hterm hrltm
      obtain ⟨ck, hck⟩ := hget (i + 1 + r) (by omega)
      have := h4 (i + 1 + r) ck (by omega) (by omega) hck
      rw [buildRel_level hck] at this
      simp [this] at hfail
    omega

/-- Witness for `C9_children_contiguous`: chunk 0 (level 2) of the
two-chunk index stores chunk 1 (level 3) as a child. -/
theorem C9_children_contiguous_witness :
    1 ∈ rcA5.child_chunk_ids ∧ 0 < 1 ∧
    1 < ([chunkA5, chunkB5] : List Chunk).length :=
  have h := (C9_children_contiguous [chunkA5, chunkB5]
    (buildRel [chunkA5, chunkB5]) rfl 0 rcA5 rfl 1).mp (by decide)
  ⟨by decide, h.1, h.2.1⟩

/-! ## C2: which chunk ids make `get_context` fail -/

/-- All chunk ids a chunk's relationship metadata can point at. -/
def relTargets (c : RChunk) : List Nat :=
  c.previous_chunk_id.toList ++ c.next_chunk_id.toList ++
  c.parent_chunk_id.toList ++ c.child_chunk_ids ++ c.related_chunk_ids

/-- A well-formed index: every relationship target is a valid position.
Pipeline output satisfies this by construction (all stored ids come from
`range(len(chunks))` scans). -/
def WFIndex (idx : List RChunk) : Prop :=
  ∀ c ∈ idx, ∀ j ∈ relTargets c, j < idx.length

/-- Python indexing succeeds exactly on `-len(xs) ≤ i < len(xs)`. -/
theorem pyGet_eq_some_iff {α : Type} (xs : List α) (i : Int) :
    (∃ a, pyGet xs i = some a) ↔
      -(xs.length : Int) ≤ i ∧ i < (xs.length : Int) := by
  unfold pyGet
  by_cases h0 : 0 ≤ i
  · rw [if_pos h0]
    constructor
    · rintro ⟨a, ha⟩
      have h1 := get?_some_lt ha
      omega
    · rintro ⟨_, h2⟩
      have : i.toNat < xs.length := by omega
      rw [List.get?_eq_get this]
      exact ⟨_, rfl⟩
  · rw [if_neg h0]
    by_cases h1 : (-i).toNat ≤ xs.length
    · rw [if_pos h1]
      constructor
      · rintro ⟨a, _⟩
        omega
      · intro _
        have hlt : xs.length - (-i).toNat < xs.length := by omega
        rw [List.get?_eq_get hlt]
        exact ⟨_, rfl⟩
    · rw [if_neg h1]
      constructor
      · rintro ⟨a, ha⟩
        cases ha
      · intro hb
        omega

/-- A fetched element is a member. -/
theorem pyGet_mem {α : Type} {xs : List α} {i : Int} {a : α}
    (h : pyGet xs i = some a) : a ∈ xs := by
  unfold pyGet at h
  split at h
  · exact List.get?_mem h
  · split at h
    · exact List.get?_mem h
    · cases h

/-- Every candidate id examined by a context mode is a relationship
target of the target chunk. -/
theorem ctxCandidates_subset {t : RChunk} {mode : String} {k : Nat}
    (hk : k ∈ ctxCandidates t mode) : k ∈ relTargets t := by
  simp only [ctxCandidates, List.mem_append] at hk
  simp only [relTargets, List.mem_append]
  rcases hk with (hk | hk) | hk
  · split at hk
    · rcases List.mem_append.mp hk with hk | hk
      · exact Or.inl (Or.inl (Or.inl (Or.inl hk)))
      · exact Or.inl (Or.inl (Or.inl (Or.inr hk)))
    · cases hk
  · split at hk
    · rcases List.mem_append.mp hk with hk | hk
      · exact Or.inl (Or.inl (Or.inr hk))
      · exact Or.inl (Or.inr (List.mem_of_mem_take hk))
    · cases hk
  · split at hk
    · exact Or.inr (List.mem_of_mem_take hk)
    · cases hk

/-- The visited-set walk never fails when every candidate is in range. -/
theorem ctxGo_ok (chunks : List RChunk) :
    ∀ (cands : List Nat), (∀ k ∈ cands, k < chunks.length) →
    ∀ res vis, ∃ st, ctxGo chunks cands res vis = .ok st := by
  intro cands
  induction cands with
  | nil => exact fun _ res vis => ⟨(res, vis), rfl⟩
  | cons k ks ih =>
    intro hb res vis
    by_cases hv : (k : Int) ∈ vis
    · rw [ctxGo, if_pos hv]
      exact ih (fun k' hk' => hb k' (List.mem_cons_of_mem _ hk')) res vis
    · obtain ⟨c, hc⟩ : ∃ c, chunks.get? k = some c := by
        rw [List.get?_eq_get (hb k (List.mem_cons_self k ks))]
        exact ⟨_, rfl⟩
      rw [ctxGo, if_neg hv, hc]
      exact ih (fun k' hk' => hb k' (List.mem_cons_of_mem _ hk')) _ _

/-- C2, amended: on a well-formed index, `get_context` succeeds exactly
on the Python-indexable ids `-N ≤ chunk_id < N` and fails with the
out-of-range error otherwise. In particular `chunk_id = 999` on a
10-chunk index fails, but a *negative* id in `[-N, -1]` succeeds (Python
back-indexing), contrary to the claim. -/
theorem C2_out_of_range (idx : List RChunk) (hwf : WFIndex idx) (cid : Int)
    (mode : String) :
    (∃ r, query_with_context idx cid mode = .ok r) ↔
      (-(idx.length : Int) ≤ cid ∧ cid < (idx.length : Int)) := by
  unfold query_with_context
  constructor
  · rintro ⟨r, hr⟩
    cases hpg : pyGet idx cid with
    | none =>
      rw [hpg] at hr
      cases hr
    | some t => exact (pyGet_eq_some_iff idx cid).mp ⟨t, hpg⟩
  · intro hb
    obtain ⟨t, ht⟩ := (pyGet_eq_some_iff idx cid).mpr hb
    rw [ht]
    have hcand : ∀ k ∈ ctxCandidates t mode, k < idx.length :=
      fun k hk => hwf t (pyGet_mem ht) k (ctxCandidates_subset hk)
    obtain ⟨st, hst⟩ := ctxGo_ok idx _ hcand [t] [cid]
    refine ⟨st.1.insertionSort byChunkId, ?_⟩
    show (match ctxGo idx (ctxCandidates t mode) [t] [cid] with
          | Except.ok st => Except.ok (st.1.insertionSort byChunkId)
          | Except.error e => Except.error e) =
        Except.ok (st.1.insertionSort byChunkId)
    rw [hst]

/-- One chunk of the concrete 10-chunk index. -/
def mkRC10 (i : Nat) : RChunk :=
  { chunk_id := i, content := "C", token_count := 1, page_numbers := [1],
    start_page := 1, end_page := 1, section' := none, subsection := none,
    hierarchy_level := 1, rel_chunk_id := i
    previous_chunk_id := if 0 < i then some (i - 1) else none
    next_chunk_id := if i < 9 then some (i + 1) else none
    parent_chunk_id := none, child_chunk_ids := [], related_chunk_ids := []
    references_to := [], referenced_by_ids := []
    continuation_of := none, continues_in := none }

/-- A concrete well-formed 10-chunk index. -/
def idx10 : List RChunk := (List.range 10).map mkRC10

/-- Counterexample to C2 as stated: on the 10-chunk index, `chunk_id =
999` does fail with the out-of-range error, but `chunk_id = -1` — which
the claim says must fail — *succeeds*, returning chunks 8 and 9 (Python
negative indexing picks chunk 9; its `previous` neighbour 8 is added by
`mode="all"`). -/
theorem C2_counterexample :
    idx10.length = 10 ∧
    query_with_context idx10 (-1) "all" = .ok [mkRC10 8, mkRC10 9] ∧
    query_with_context idx10 999 "all" =
      .error "IndexError: list index out of range" :=
  ⟨rfl, rfl, rfl⟩

/-- Witness for `C2_out_of_range` at an in-range id. -/
theorem C2_out_of_range_witness :
    (-(idx10.length : Int) ≤ 3 ∧ (3 : Int) < (idx10.length : Int)) ∧
    (∃ r, query_with_context idx10 3 "all" = .ok r) :=
  ⟨⟨by decide, by decide⟩,
    (C2_out_of_range idx10 (by unfold WFIndex; decide) 3 "all").mpr
      ⟨by decide, by decide⟩⟩

/-! ## C7: hierarchical context retrieval -/

instance : IsTotal RChunk byChunkId :=
  ⟨fun a b => Nat.le_total a.chunk_id b.chunk_id⟩

instance : IsTrans RChunk byChunkId :=
  ⟨fun _ _ _ hab hbc => Nat.le_trans hab hbc⟩

/-- The visited-set walk, tracked exactly: when every candidate is in
range and ids equal positions, it returns the accumulated results whose
id list extends `vis` with each *new* candidate in order — deduplicated,
and containing an id iff it was already visited or is a candidate. -/
theorem ctxGo_spec (chunks : List RChunk)
    (hid : ∀ (k : Nat) (c : RChunk), chunks.get? k = some c → c.chunk_id = k) :
    ∀ (cands : List Nat) (res : List RChunk) (vis : List Int),
      (∀ k ∈ cands, k < chunks.length) →
      vis = res.map (fun c => (c.chunk_id : Int)) →
      vis.Nodup →
      ∃ res', ctxGo chunks cands res vis =
          .ok (res', res'.map (fun c => (c.chunk_id : Int))) ∧
        (res'.map (fun c => (c.chunk_id : Int))).Nodup ∧
        ∀ x : Int, x ∈ res'.map (fun c => (c.chunk_id : Int)) ↔
          (x ∈ vis ∨ ∃ k ∈ cands, (k : Int) = x) := by
  intro cands
  induction cands with
  | nil =>
    intro res vis hb hvis hnd
    subst hvis
    exact ⟨res, rfl, hnd, fun x => by simp⟩
  | cons k ks ih =>
    intro res vis hb hvis hnd
    by_cases hv : (k : Int) ∈ vis
    · rw [ctxGo, if_pos hv]
      obtain ⟨res', h1, h2, h3⟩ :=
        ih res vis (fun k' hk' => hb k' (List.mem_cons_of_mem _ hk')) hvis hnd
      refine ⟨res', h1, h2, fun x => ?_⟩
      rw [h3 x]
      constructor
      · rintro (h | ⟨k', hk', rfl⟩)
        · exact Or.inl h
        · exact Or.inr ⟨k', List.mem_cons_of_mem _ hk', rfl⟩
      · rintro (h | ⟨k', hk', rfl⟩)
        · exact Or.inl h
        · rcases List.mem_cons.mp hk' with rfl | hk'
          · exact Or.inl hv
          · exact Or.inr ⟨k', hk', rfl⟩
    · obtain ⟨c, hc⟩ : ∃ c, chunks.get? k = some c := by
        rw [List.get?_eq_get (hb k (List.mem_cons_self k ks))]
        exact ⟨_, rfl⟩
      rw [ctxGo, if_neg hv, hc]
      have hck : c.chunk_id = k := hid k c hc
      obtain ⟨res', h1, h2, h3⟩ :=
        ih (res ++ [c]) (vis ++ [(k : Int)])
          (fun k' hk' => hb k' (List.mem_cons_of_mem _ hk'))
          (by rw [hvis, List.map_append]; simp [hck])
          (by simp [List.nodup_append, hnd, hv])
      refine ⟨res', h1, h2, fun x => ?_⟩
      rw [h3 x]
      constructor
      · rintro (h | ⟨k', hk', rfl⟩)
        · rcases List.mem_append.mp h with h | h
          · exact Or.inl h
          · refine Or.inr ⟨k, List.mem_cons_self k ks, ?_⟩
            have := List.mem_singleton.mp h
            omega
        · exact Or.inr ⟨k', List.mem_cons_of_mem _ hk', rfl⟩
      · rintro (h | ⟨k', hk', rfl⟩)
        · exact Or.inl (List.mem_append.mpr (Or.inl h))
        · rcases List.mem_cons.mp hk' with rfl | hk'
          · exact Or.inl (List.mem_append.mpr (Or.inr (by simp)))
          · exact Or.inr ⟨k', hk', rfl⟩

/-- Non-negative Python indexing is plain list indexing. -/
theorem pyGet_ofNat {α : Type} (xs : List α) (n : Nat) :
    pyGet xs (n : Int) = xs.get? n := by
  unfold pyGet
  rw [if_pos (by omega : (0 : Int) ≤ (n : Int))]
  simp

/-- C7: on a well-formed index whose ids equal positions, a successful
`get_context(chunk_id, mode="hierarchical")` returns a list sorted
ascending by `chunk_id`, without duplicates, whose ids are exactly: the
target, its parent when present, and the first (at most) 3 of its stored
child ids. -/
theorem C7_hierarchical (idx : List RChunk)
    (hid : ∀ (k : Nat) (hk : k < idx.length), (idx.get ⟨k, hk⟩).chunk_id = k)
    (hwf : WFIndex idx) (cid : Nat) (t : RChunk) (ht : idx.get? cid = some t)
    (r : List RChunk) (hq : query_with_context idx (cid : Int) "hierarchical" = .ok r) :
    List.Sorted byChunkId r ∧
    (r.map RChunk.chunk_id).Nodup ∧
    ∀ x : Nat, x ∈ r.map RChunk.chunk_id ↔
      (x = cid ∨ x ∈ t.parent_chunk_id.toList ∨ x ∈ t.child_chunk_ids.take 3) := by
  have hid' : ∀ (k : Nat) (c : RChunk), idx.get? k = some c → c.chunk_id = k := by
    intro k c hkc
    have hk := get?_some_lt hkc
    rw [List.get?_eq_get hk] at hkc
    injection hkc with e
    rw [← e]
    exact hid k hk
  have hcands : ctxCandidates t "hierarchical" =
      t.parent_chunk_id.toList ++ t.child_chunk_ids.take 3 := by
    unfold ctxCandidates
    rw [if_neg (by decide), if_pos (by decide), if_neg (by decide)]
    simp
  obtain ⟨res', h1, h2, h3⟩ :=
    ctxGo_spec idx hid' (ctxCandidates t "hierarchical") [t] [(cid : Int)]
      (fun k hk =>
        hwf t (List.get?_mem ht) k (ctxCandidates_subset hk))
      (by simp [hid' cid t ht])
      (List.nodup_singleton _)
  have hr : r = res'.insertionSort byChunkId := by
    unfold query_with_context at hq
    rw [pyGet_ofNat, ht] at hq
    have hq2 : (match ctxGo idx (ctxCandidates t "hierarchical") [t] [(cid : Int)] with
        | Except.ok st => Except.ok (st.1.insertionSort byChunkId)
        | Except.error e => Except.error e) = Except.ok r := hq
    rw [h1] at hq2
    injection hq2 with hq2
    exact hq2.symm
  subst hr
  have hperm : (res'.insertionSort byChunkId).Perm res' :=
    List.perm_insertionSort byChunkId res'
  have hmapperm : ((res'.insertionSort byChunkId).map RChunk.chunk_id).Perm
      (res'.map RChunk.chunk_id) := hperm.map _
  have hintnat : res'.map (fun c => (c.chunk_id : Int)) =
      (res'.map RChunk.chunk_id).map (fun n : Nat => (n : Int)) := by
    rw [List.map_map]
    rfl
  refine ⟨List.sorted_insertionSort byChunkId res', ?_, ?_⟩
  · rw [hintnat] at h2
    exact hmapperm.nodup_iff.mpr (h2.of_map _)
  · intro x
    rw [hmapperm.mem_iff]
    have hx : x ∈ res'.map RChunk.chunk_id ↔
        (x : Int) ∈ res'.map (fun c => (c.chunk_id : Int)) := by
      rw [hintnat]
      exact (List.mem_map_of_injective (fun a b => by omega)).symm
    rw [hx, h3, hcands]
    constructor
    · rintro (h | ⟨k, hk, hke⟩)
      · simp only [List.mem_singleton] at h
        exact Or.inl (by omega)
      · have hxk : x = k := by omega
        subst hxk
        rcases List.mem_append.mp hk with hk | hk
        · exact Or.inr (Or.inl hk)
        · exact Or.inr (Or.inr hk)
    · rintro (rfl | h | h)
      · exact Or.inl (by simp)
      · exact Or.inr ⟨x, List.mem_append.mpr (Or.inl h), rfl⟩
      · exact Or.inr ⟨x, List.mem_append.mpr (Or.inr h), rfl⟩

/-- One chunk of the concrete 12-chunk index for the C7 scenario: chunk
5 has parent 2 and stored children `[6, 7, 8, 9, 10, 11]`. -/
def mkRC12 (i : Nat) : RChunk :=
  { chunk_id := i, content := "C", token_count := 1, page_numbers := [1],
    start_page := 1, end_page := 1, section' := none, subsection := none,
    hierarchy_level := 1, rel_chunk_id := i
    previous_chunk_id := if 0 < i then some (i - 1) else none
    next_chunk_id := if i < 11 then some (i + 1) else none
    parent_chunk_id := if i = 5 then some 2 else none
    child_chunk_ids := if i = 5 then [6, 7, 8, 9, 10, 11] else []
    related_chunk_ids := []
    references_to := [], referenced_by_ids := []
    continuation_of := none, continues_in := none }

/-- The 12-chunk index of the C7 scenario. -/
def idx12 : List RChunk := (List.range 12).map mkRC12

/-- Witness for `C7_hierarchical` at the spec's scenario:
`get_context(5, "hierarchical")` on a chunk with parent 2 and children
`[6,…,11]` returns exactly the chunks with ids `[2, 5, 6, 7, 8]` (sorted
ascending, deduplicated; 9, 10, 11 excluded). -/
theorem C7_hierarchical_witness :
    query_with_context idx12 (5 : Int) "hierarchical" =
      .ok [mkRC12 2, mkRC12 5, mkRC12 6, mkRC12 7, mkRC12 8] ∧
    ([mkRC12 2, mkRC12 5, mkRC12 6, mkRC12 7, mkRC12 8].map
      RChunk.chunk_id).Nodup ∧
    (9 ∉ [mkRC12 2, mkRC12 5, mkRC12 6, mkRC12 7, mkRC12 8].map
      RChunk.chunk_id) :=
  have h := C7_hierarchical idx12 (by decide) (by unfold WFIndex; decide) 5
    (mkRC12 5) rfl [mkRC12 2, mkRC12 5, mkRC12 6, mkRC12 7, mkRC12 8] rfl
  ⟨rfl, h.2.1, fun hmem => by
    have := (h.2.2 9).mp hmem
    revert this
    decide⟩

/-! ## C10: the accumulated page set across chunks -/

/-- The page-marker values the sentence loop can record, in text order:
the first marker of each sentence, in sentence order. -/
def markerStream (pd : PdfData) : List Nat :=
  (splitSentences (fullTextOf pd)).filterMap findPageMarker

/-- The page set built by `set.add` over a marker sequence. -/
def foldPages (ms : List Nat) : List Nat :=
  ms.foldl (fun l p => pyInsert p l) []

/-- Membership in a `pyInsert`. -/
theorem mem_pyInsert {x p : Nat} {l : List Nat} :
    x ∈ pyInsert p l ↔ x ∈ l ∨ x = p := by
  unfold pyInsert
  split
  · constructor
    · exact Or.inl
    · rintro (h | rfl)
      · exact h
      · assumption
  · simp

/-- Inserted sets only grow. -/
theorem subset_pyInsert (p : Nat) (l : List Nat) : l ⊆ pyInsert p l := by
  intro x hx
  exact mem_pyInsert.mpr (Or.inl hx)

/-- Membership in the folded page set. -/
theorem mem_foldPages {x : Nat} : ∀ {ms acc : List Nat},
    x ∈ ms.foldl (fun l p => pyInsert p l) acc ↔ x ∈ acc ∨ x ∈ ms := by
  intro ms
  induction ms with
  | nil => simp
  | cons p ms ih =>
    intro acc
    rw [List.foldl_cons]
    rw [ih]
    rw [mem_pyInsert]
    constructor
    · rintro ((h | rfl) | h)
      · exact Or.inl h
      · exact Or.inr (List.mem_cons_self _ _)
      · exact Or.inr (List.mem_cons_of_mem _ h)
    · rintro (h | h)
      · exact Or.inl (Or.inl h)
      · rcases List.mem_cons.mp h with rfl | h
        · exact Or.inl (Or.inr rfl)
        · exact Or.inr h

/-- Appending one marker to the stream inserts it into the fold. -/
theorem foldPages_concat (q : List Nat) (p : Nat) :
    foldPages (q ++ [p]) = pyInsert p (foldPages q) := by
  unfold foldPages
  rw [List.foldl_concat]

/-- The `page_numbers` / `start_page` relation every `_create_chunk`
output satisfies. -/
theorem chunkLoop_start_page (cfg : Cfg) (sec sub : Option String)
    (sentences : List String) :
    ∀ rest (i : Nat) (st : ChunkState),
      (∀ c ∈ st.chunks, c.start_page = (c.page_numbers.min?).getD 0) →
      ∀ c ∈ (chunkLoop cfg sec sub sentences i rest st).chunks,
        c.start_page = (c.page_numbers.min?).getD 0 := by
  intro rest
  induction rest with
  | nil => exact fun i st h => h
  | cons s rest ih =>
    intro i st h
    refine ih (i + 1) _ ?_
    intro c' hc'
    unfold stepSentence at hc'
    by_cases hcut : cfg.chunk_size ≤ cfg.tokLen (st.cur ++ " " ++ s)
    · simp only [if_pos hcut, List.mem_append, List.mem_singleton] at hc'
      rcases hc' with hc' | rfl
      · exact h c' hc'
      · rfl
    · simp only [if_neg hcut] at hc'
      exact h c' hc'

/-- The loop's page set only grows, and every emitted chunk's page set
is a snapshot of it: consecutive chunks' page sets form a ⊆-chain, and
all of them are ⊆ the final page set. -/
theorem chunkLoop_pages_chain (cfg : Cfg) (sec sub : Option String)
    (sentences : List String) :
    ∀ rest (i : Nat) (st : ChunkState),
      List.Chain' (fun a b : Chunk => a.page_numbers ⊆ b.page_numbers) st.chunks →
      (∀ c ∈ st.chunks, c.page_numbers ⊆ st.pages) →
      List.Chain' (fun a b : Chunk => a.page_numbers ⊆ b.page_numbers)
        (chunkLoop cfg sec sub sentences i rest st).chunks ∧
      ∀ c ∈ (chunkLoop cfg sec sub sentences i rest st).chunks,
        c.page_numbers ⊆ (chunkLoop cfg sec sub sentences i rest st).pages := by
  intro rest
  induction rest with
  | nil => exact fun i st h1 h2 => ⟨h1, h2⟩
  | cons s rest ih =>
    intro i st h1 h2
    have hgrow : st.pages ⊆ (match findPageMarker s with
        | some p => pyInsert p st.pages
        | none => st.pages) := by
      cases findPageMarker s with
      | some p => exact subset_pyInsert p st.pages
      | none => exact fun x hx => hx
    refine ih (i + 1) _ ?_ ?_ <;>
      unfold stepSentence <;>
      by_cases hcut : cfg.chunk_size ≤ cfg.tokLen (st.cur ++ " " ++ s)
    · simp only [if_pos hcut]
      refine List.Chain'.append h1 (List.chain'_singleton _) ?_
      intro x hx y hy
      simp only [List.head?_cons, Option.mem_def, Option.some.injEq] at hy
      subst hy
      obtain ⟨hne, rfl⟩ := List.mem_getLast?_eq_getLast hx
      exact fun z hz => hgrow (h2 _ (List.getLast_mem hne) hz)
    · simp only [if_neg hcut]
      exact h1
    · simp only [if_pos hcut]
      intro c hc
      rcases List.mem_append.mp hc with hc | hc
      · exact fun z hz => hgrow (h2 c hc hz)
      · rw [List.mem_singleton] at hc
        subst hc
        exact fun z hz => hz
    · simp only [if_neg hcut]
      intro c hc
      exact fun z hz => hgrow (h2 c hc hz)

/-- The loop's page set is the fold of the markers recorded so far, and
every emitted chunk's page set is the fold of a prefix of the marker
stream. -/
theorem chunkLoop_pages_prefix (cfg : Cfg) (sec sub : Option String)
    (sentences : List String) :
    ∀ rest (i : Nat) (st : ChunkState) (q : List Nat),
      st.pages = foldPages q →
      (∀ c ∈ st.chunks, ∃ q', q' <+: q ∧ c.page_numbers = foldPages q') →
      (chunkLoop cfg sec sub sentences i rest st).pages =
        foldPages (q ++ rest.filterMap findPageMarker) ∧
      ∀ c ∈ (chunkLoop cfg sec sub sentences i rest st).chunks,
        ∃ q', q' <+: (q ++ rest.filterMap findPageMarker) ∧
          c.page_numbers = foldPages q' := by
  intro rest
  induction rest with
  | nil =>
    intro i st q h1 h2
    simp only [chunkLoop, List.filterMap_nil, List.append_nil]
    exact ⟨h1, h2⟩
  | cons s rest ih =>
    intro i st q h1 h2
    rw [chunkLoop, List.filterMap_cons]
    cases hm : findPageMarker s with
    | none =>
      have hpg : (stepSentence cfg sec sub sentences i s st).pages = foldPages q := by
        unfold stepSentence
        by_cases hcut : cfg.chunk_size ≤ cfg.tokLen (st.cur ++ " " ++ s) <;>
          simp only [if_pos, if_neg, hcut, hm, ite_true, ite_false] <;> exact h1
      refine ih (i + 1) _ q hpg ?_
      intro c hc
      unfold stepSentence at hc
      by_cases hcut : cfg.chunk_size ≤ cfg.tokLen (st.cur ++ " " ++ s)
      · simp only [if_pos hcut, hm, List.mem_append, List.mem_singleton] at hc
        rcases hc with hc | rfl
        · exact h2 c hc
        · exact ⟨q, List.prefix_rfl, h1⟩
      · simp only [if_neg hcut] at hc
        exact h2 c hc
    | some p =>
      have hq1 : pyInsert p st.pages = foldPages (q ++ [p]) := by
        rw [h1, foldPages_concat]
      have hpg : (stepSentence cfg sec sub sentences i s st).pages =
          foldPages (q ++ [p]) := by
        unfold stepSentence
        by_cases hcut : cfg.chunk_size ≤ cfg.tokLen (st.cur ++ " " ++ s) <;>
          simp only [if_pos, if_neg, hcut, hm, ite_true, ite_false] <;> exact hq1
      have harr : (q ++ [p]) ++ rest.filterMap findPageMarker =
          q ++ (p :: rest.filterMap findPageMarker) := by
        rw [List.append_assoc]
        rfl
      rw [← harr]
      refine ih (i + 1) _ (q ++ [p]) hpg ?_
      intro c hc
      unfold stepSentence at hc
      by_cases hcut : cfg.chunk_size ≤ cfg.tokLen (st.cur ++ " " ++ s)
      · simp only [if_pos hcut, hm, List.mem_append, List.mem_singleton] at hc
        rcases hc with hc | rfl
        · obtain ⟨q', hq', he⟩ := h2 c hc
          exact ⟨q', hq'.trans (List.prefix_append q [p]), he⟩
        · exact ⟨q ++ [p], List.prefix_rfl, hq1⟩
      · simp only [if_neg hcut] at hc
        obtain ⟨q', hq', he⟩ := h2 c hc
        exact ⟨q', hq'.trans (List.prefix_append q [p]), he⟩

/-- For an ascending marker stream, the set folded from any nonempty
prefix has the stream's first element as its minimum. -/
theorem foldPages_min_of_sorted {ms q : List Nat}
    (hs : List.Sorted (· ≤ ·) ms) (hq : q <+: ms) (hne : q ≠ []) :
    (foldPages q).min? = ms.head? := by
  obtain ⟨a, q', rfl⟩ : ∃ a q', q = a :: q' := by
    cases q with
    | nil => exact absurd rfl hne
    | cons a q' => exact ⟨a, q', rfl⟩
  obtain ⟨t, ht⟩ := hq
  subst ht
  rw [List.cons_append] at hs ⊢
  rw [List.sorted_cons] at hs
  rw [List.head?_cons]
  rw [List.min?_eq_some_iff (fun x => Nat.le_refl x) (fun x y => min_choice x y)
    (fun x y z => Nat.le_min)]
  constructor
  · show a ∈ (a :: q').foldl (fun l p => pyInsert p l) []
    exact mem_foldPages.mpr (Or.inr (List.mem_cons_self a q'))
  · intro b hb
    have hbq : b ∈ a :: q' := by
      rcases mem_foldPages.mp hb with h | h
      · cases h
      · exact h
    rcases List.mem_cons.mp hbq with rfl | hbq'
    · exact Nat.le_refl b
    · exact hs.1 b (List.mem_append.mpr (Or.inl hbq'))

/-- The per-chunk form of the start-page fact. -/
theorem start_page_eq_head {ms q' : List Nat}
    (hsort : List.Sorted (· ≤ ·) ms) (hq' : q' <+: ms) {c : Chunk}
    (hpages : c.page_numbers = foldPages q')
    (hsp : c.start_page = (c.page_numbers.min?).getD 0)
    (hne : c.page_numbers ≠ []) : some c.start_page = ms.head? := by
  have hq'ne : q' ≠ [] := by
    rintro rfl
    exact hne (by rw [hpages]; rfl)
  have hmin : (c.page_numbers).min? = ms.head? := by
    rw [hpages]
    exact foldPages_min_of_sorted hsort hq' hq'ne
  obtain ⟨m0, hm0⟩ : ∃ m0, ms.head? = some m0 := by
    cases ms with
    | nil => exact absurd (List.prefix_nil.mp hq') hq'ne
    | cons m0 ms' => exact ⟨m0, rfl⟩
  rw [hsp, hmin, hm0]
  rfl

/-- C10, amended: the page set is never reset across chunk emissions, so
consecutive chunks' `page_numbers` sets form a ⊆-chain; and *when the
recorded marker stream is ascending* (true of pipeline documents, whose
injected markers are numbered 1, 2, 3, …), every chunk that records any
pages has `start_page` equal to the first recorded page-boundary marker
of the whole document. -/
theorem C10_page_sets (cfg : Cfg) (pd : PdfData) :
    List.Chain' (fun a b : Chunk => a.page_numbers ⊆ b.page_numbers)
      (create_chunks_with_metadata cfg pd) ∧
    (List.Sorted (· ≤ ·) (markerStream pd) →
      ∀ c ∈ create_chunks_with_metadata cfg pd, c.page_numbers ≠ [] →
        some c.start_page = (markerStream pd).head?) := by
  have hchain := chunkLoop_pages_chain cfg (finalSectionState pd).1
    (finalSectionState pd).2 (splitSentences (fullTextOf pd))
    (splitSentences (fullTextOf pd)) 0 ⟨"", [], 0, []⟩ List.chain'_nil
    (by intro c hc; cases hc)
  have hpref := chunkLoop_pages_prefix cfg (finalSectionState pd).1
    (finalSectionState pd).2 (splitSentences (fullTextOf pd))
    (splitSentences (fullTextOf pd)) 0 ⟨"", [], 0, []⟩ [] rfl
    (by intro c hc; cases hc)
  have hsp := chunkLoop_start_page cfg (finalSectionState pd).1
    (finalSectionState pd).2 (splitSentences (fullTextOf pd))
    (splitSentences (fullTextOf pd)) 0 ⟨"", [], 0, []⟩
    (by intro c hc; cases hc)
  rw [List.nil_append] at hpref
  have hms : markerStream pd =
      (splitSentences (fullTextOf pd)).filterMap findPageMarker := rfl
  have hrepr : create_chunks_with_metadata cfg pd =
      if pyStrip (chunkLoop cfg (finalSectionState pd).1 (finalSectionState pd).2
          (splitSentences (fullTextOf pd)) 0 (splitSentences (fullTextOf pd))
          ⟨"", [], 0, []⟩).cur = "" then
        (chunkLoop cfg (finalSectionState pd).1 (finalSectionState pd).2
          (splitSentences (fullTextOf pd)) 0 (splitSentences (fullTextOf pd))
          ⟨"", [], 0, []⟩).chunks
      else
        (chunkLoop cfg (finalSectionState pd).1 (finalSectionState pd).2
          (splitSentences (fullTextOf pd)) 0 (splitSentences (fullTextOf pd))
          ⟨"", [], 0, []⟩).chunks ++
        [create_chunk cfg
          (chunkLoop cfg (finalSectionState pd).1 (finalSectionState pd).2
            (splitSentences (fullTextOf pd)) 0 (splitSentences (fullTextOf pd))
            ⟨"", [], 0, []⟩).cid
          (pyStrip (chunkLoop cfg (finalSectionState pd).1 (finalSectionState pd).2
            (splitSentences (fullTextOf pd)) 0 (splitSentences (fullTextOf pd))
            ⟨"", [], 0, []⟩).cur)
          (chunkLoop cfg (finalSectionState pd).1 (finalSectionState pd).2
            (splitSentences (fullTextOf pd)) 0 (splitSentences (fullTextOf pd))
            ⟨"", [], 0, []⟩).pages
          (finalSectionState pd).1 (finalSectionState pd).2] := rfl
  rw [hrepr]
  split
  · refine ⟨hchain.1, fun hsort c hc hne => ?_⟩
    obtain ⟨q', hq', he⟩ := hpref.2 c hc
    exact start_page_eq_head hsort (hms ▸ hq') he (hsp c hc) hne
  · constructor
    · refine List.Chain'.append hchain.1 (List.chain'_singleton _) ?_
      intro x hx y hy
      simp only [List.head?_cons, Option.mem_def, Option.some.injEq] at hy
      subst hy
      obtain ⟨hnex, rfl⟩ := List.mem_getLast?_eq_getLast hx
      exact fun z hz => hchain.2 _ (List.getLast_mem hnex) hz
    · intro hsort c hc hne
      rcases List.mem_append.mp hc with hc | hc
      · obtain ⟨q', hq', he⟩ := hpref.2 c hc
        exact start_page_eq_head hsort (hms ▸ hq') he (hsp c hc) hne
      · rw [List.mem_singleton] at hc
        subst hc
        exact start_page_eq_head hsort (hms ▸ List.prefix_rfl)
          (hpref.1) rfl hne

/-- Witness for `C10_page_sets` on the two-page document `pdC1`:
its marker stream `[1, 2]` is ascending, and the first emitted chunk
records pages and has `start_page = 1`, the first marker. -/
theorem C10_page_sets_witness :
    List.Sorted (· ≤ ·) (markerStream pdC1) ∧
    some chunk0C1.start_page = (markerStream pdC1).head? :=
  ⟨by decide,
    (C10_page_sets (lenCfg 45) pdC1).2 (by decide) chunk0C1 (by decide)
      (by decide)⟩

/-- The document breaking the "first marker" half of C10: page 1's
*text* itself contains a spurious lower-numbered marker line after a
sentence boundary. -/
def pdC10 : PdfData := ⟨[⟨1, "End. --- Page 0 --- more", []⟩]⟩

/-- Counterexample to C10 as stated: on `pdC10` the single emitted chunk
records pages (`[1, 0]`), the first page-boundary marker encountered in
the whole document is `1` (the injected page-1 marker opens the text),
yet the chunk's `start_page` is `0` — `start_page` is `min(pages)`, not
the first marker, and a later spurious marker with a smaller number
wins. -/
theorem C10_counterexample :
    (create_chunks_with_metadata (lenCfg 1000) pdC10).map
      (fun c => (c.page_numbers, c.start_page)) = [([1, 0], 0)] ∧
    (markerStream pdC10).head? = some 1 :=
  ⟨by decide, by decide⟩
